import Mathlib

/-!
Verification of the flowdiscovery-digital-rock core against its specification.

This file contains a shallow embedding, translated from the C++ sources, of
the parts of the program the claims concern:

* the handle-based binary min-heap (src/skeleton/heaps/handle_based_binary_heap.h);
* the Enhanced Hoshen-Kopelman cluster labeller (src/cluster_label/cluster_label.cc);
* the image-foresting-transform skeletonizer and its quadratic path calculator
  (src/skeleton/skeletonizer_by_ift.h, src/skeleton/paths/quadratic_path_calculator.h,
  src/skeleton/contours/contour_calculator.h, src/skeleton/heaps/binary_heap.h);
* the graph builders and graphs (src/skeleton/centerline/memory_graph_builder.h,
  src/skeleton/centerline/speed_graph_builder.h, src/skeleton/graph/memory_graph.h,
  src/skeleton/graph/speed_graph.h);
* the centerline routing driver loop and the centerline splitting pass
  (src/skeleton/centerline/centerline_calculator.h, src/skeleton/centerline/centerline_set.h,
  src/skeleton/centerline/centerline.h).

Machine integers are modelled by Nat and Int: all concrete runs below keep every
intermediate value far below 2^31, where the C++ fixed-width arithmetic agrees
with exact arithmetic.
-/

set_option maxRecDepth 1000000

namespace DigitalRock

/-! ### Handle-based binary min-heap (handle_based_binary_heap.h)

The C++ class stores a vector of pointers to Handle objects, each holding a
priority (of template type TKey) and its current index in the vector; every swap
rewrites the stored indices, so a handle index always equals the handle
position.  We therefore model the element vector as a list of entries
(priority, id): the id is the identity of the Handle object (numbered in
allocation order), and the index field is implicit in the list position.

The TKey contract (comment in the source, lines 25-33) demands that the
default-constructed key compare greater than every other key; we model TKey as
Option Nat, where none is the default (maximal) key that Insert pushes before
sifting, and some n an ordinary priority. -/

/-- Priority as stored in the handle-based heap: none is the default
(maximal) key of the TKey contract, some n an ordinary priority. -/
abbrev HPrio := Option Nat

/-- A heap entry: the priority and the identity of its Handle object
(handles are numbered in allocation order). -/
abbrev HEntry := HPrio × Nat

/-- DefaultComparer.IsLess on the modelled TKey: an ordinary priority is less
than the default key, the default key is less than nothing, and ordinary
priorities compare as naturals. -/
def hLess : HPrio → HPrio → Bool
  | none, _ => false
  | some _, none => true
  | some a, some b => a < b

/-- IsLess lifted to entries, comparing priorities only (the handle identity
never takes part in a comparison, exactly as in the source). -/
def heLess (a b : HEntry) : Bool := hLess a.1 b.1

/-- Element read, with the default entry out of range (all reads used by the
algorithms are in range). -/
def getE (l : List HEntry) (i : Nat) : HEntry := l.getD i (none, 0)

/-- HandleBasedBinaryHeap.Swap: exchange the entries at two positions (the
index fields stored in the two handles are updated implicitly, being the
positions themselves). -/
def hSwap (l : List HEntry) (i j : Nat) : List HEntry :=
  (l.set i (getE l j)).set j (getE l i)

/-- The index of the child chosen by MinHeapify: the smallest among the node
and its (valid) children, exactly as computed by the source (the two
comparisons of the source unfolded into a case tree). -/
def heapifySmallest (l : List HEntry) (i : Nat) : Nat :=
  if 2*i+1 < l.length && heLess (getE l (2*i+1)) (getE l i) then
    if 2*i+2 < l.length && heLess (getE l (2*i+2)) (getE l (2*i+1)) then 2*i+2 else 2*i+1
  else
    if 2*i+2 < l.length && heLess (getE l (2*i+2)) (getE l i) then 2*i+2 else i

/-- HandleBasedBinaryHeap.MinHeapify.  The recursion of the source descends a
child per step; the fuel parameter (instantiated with the list length, an
upper bound on the depth) makes the recursion structural. -/
def MinHeapifyF : Nat → List HEntry → Nat → List HEntry
  | 0, l, _ => l
  | fuel + 1, l, i =>
    let s := heapifySmallest l i
    if s ≠ i then MinHeapifyF fuel (hSwap l i s) s else l

/-- HandleBasedBinaryHeap.MinHeapify from index i. -/
def MinHeapify (l : List HEntry) (i : Nat) : List HEntry := MinHeapifyF l.length l i

/-- The sift-up loop inside HandleBasedBinaryHeap.DecreasePriority: swap with
the parent while strictly less than it.  Fuel (instantiated with the start
index, an upper bound on the number of swaps) makes the loop structural. -/
def siftUpF : Nat → List HEntry → Nat → List HEntry
  | 0, l, _ => l
  | fuel + 1, l, i =>
    if 0 < i && heLess (getE l i) (getE l ((i-1)/2)) then
      siftUpF fuel (hSwap l i ((i-1)/2)) ((i-1)/2)
    else l

/-- Sift-up from index i. -/
def siftUp (l : List HEntry) (i : Nat) : List HEntry := siftUpF i l i

/-- HandleBasedBinaryHeap.DecreasePriority: none models the throw when the
new priority is greater than the handle's current one; otherwise the handle's
priority is overwritten and sifted up from its current index. -/
def DecreasePriority (l : List HEntry) (i : Nat) (p : HPrio) : Option (List HEntry) :=
  if hLess (getE l i).1 p then none
  else some (siftUp (l.set i (p, (getE l i).2)) i)

/-- HandleBasedBinaryHeap.Insert: push a handle with the default (maximal) key
at the back, then DecreasePriority it to the requested priority.  The fresh
handle gets identity id. -/
def Insert (l : List HEntry) (p : HPrio) (id : Nat) : Option (List HEntry) :=
  DecreasePriority (l ++ [(none, id)]) l.length p

/-- HandleBasedBinaryHeap.Remove, instrumented with the bounds status of its
raw accesses: the source copies the first entry, overwrites slot 0 with the
last entry, pops the back, then performs elements_[0]->SetIndex(0) and
MinHeapify(0).  The returned Bool records whether that post-pop access to
index 0 was within the bounds of the shrunk vector.  none models the throw on
an empty heap. -/
def RemoveChecked (l : List HEntry) : Option (HEntry × List HEntry × Bool) :=
  match l with
  | [] => none
  | e :: _ =>
    let popped := (l.set 0 (getE l (l.length - 1))).dropLast
    some (e, MinHeapify popped 0, decide (0 < popped.length))

/-- HandleBasedBinaryHeap.Remove: the returned minimal entry and the remaining
heap. -/
def Remove (l : List HEntry) : Option (HEntry × List HEntry) :=
  (RemoveChecked l).map (fun r => (r.1, r.2.1))

/-- Insert a list of priorities in order, handle ids counting up from nextId;
none if any insertion throws. -/
def InsertList (l : List HEntry) (nextId : Nat) : List HPrio → Option (List HEntry)
  | [] => some l
  | p :: ps =>
    match Insert l p nextId with
    | none => none
    | some l2 => InsertList l2 (nextId + 1) ps

/-- Build a heap by inserting the given priorities into an empty heap
(handle ids 0, 1, 2, ...). -/
def InsertAll (ps : List HPrio) : Option (List HEntry) := InsertList [] 0 ps

/-- Remove every element in turn, collecting the removal sequence. -/
def RemoveAllAux : Nat → List HEntry → List HEntry
  | 0, _ => []
  | fuel + 1, l =>
    match Remove l with
    | none => []
    | some (e, l2) => e :: RemoveAllAux fuel l2

/-- The full removal sequence of a heap. -/
def RemoveAll (l : List HEntry) : List HEntry := RemoveAllAux l.length l

/-! ### Heap order facts and the binary-heap invariant -/

theorem hLess_irrefl (a : HPrio) : hLess a a = false := by
  cases a <;> simp [hLess]

theorem hLess_asymm {a b : HPrio} (h : hLess a b = true) : hLess b a = false := by
  cases a <;> cases b <;> simp_all [hLess] <;> omega

theorem hLess_trans {a b c : HPrio} (h1 : hLess a b = true) (h2 : hLess b c = true) :
    hLess a c = true := by
  cases a <;> cases b <;> cases c <;> simp_all [hLess] <;> omega

theorem hLE_trans {a b c : HPrio} (h1 : hLess b a = false) (h2 : hLess c b = false) :
    hLess c a = false := by
  cases a <;> cases b <;> cases c <;> simp_all [hLess] <;> omega

/-- From x strictly below p and t not strictly below p: t is not strictly
below x. -/
theorem hLE_of_hLess_of_hLE {x p t : HPrio} (h1 : hLess x p = true)
    (h2 : hLess t p = false) : hLess t x = false := by
  cases x <;> cases p <;> cases t <;> simp_all [hLess] <;> omega

theorem heLess_irrefl (a : HEntry) : heLess a a = false := hLess_irrefl a.1

theorem heLess_asymm {a b : HEntry} (h : heLess a b = true) : heLess b a = false :=
  hLess_asymm h

theorem heLE_trans {a b c : HEntry} (h1 : heLess b a = false) (h2 : heLess c b = false) :
    heLess c a = false := hLE_trans h1 h2

theorem heLess_trans {a b c : HEntry} (h1 : heLess a b = true) (h2 : heLess b c = true) :
    heLess a c = true := hLess_trans h1 h2

theorem heLE_of_heLess_of_heLE {x p t : HEntry} (h1 : heLess x p = true)
    (h2 : heLess t p = false) : heLess t x = false := hLE_of_hLess_of_hLE h1 h2

/-- The binary-heap invariant of the element vector: no entry is strictly
less than its parent entry. -/
def HeapProp (l : List HEntry) : Prop :=
  ∀ j, 0 < j → j < l.length → heLess (getE l j) (getE l ((j-1)/2)) = false

/-! #### Access lemmas for getE, set, hSwap -/

theorem getE_set_eq {l : List HEntry} {i : Nat} (h : i < l.length) (x : HEntry) :
    getE (l.set i x) i = x := by
  induction l generalizing i with
  | nil => simp at h
  | cons a t ih =>
    cases i with
    | zero => simp [getE]
    | succ m => simpa [getE, List.set] using ih (by simpa using h)

theorem getE_set_ne {l : List HEntry} {i j : Nat} (h : j ≠ i) (x : HEntry) :
    getE (l.set i x) j = getE l j := by
  induction l generalizing i j with
  | nil => simp [getE]
  | cons a t ih =>
    cases i with
    | zero =>
      cases j with
      | zero => omega
      | succ m => simp [getE, List.set]
    | succ m =>
      cases j with
      | zero => simp [getE, List.set]
      | succ r =>
        have hr : r ≠ m := by omega
        have := ih (i := m) (j := r) hr
        simpa [getE, List.set] using this

theorem length_hSwap (l : List HEntry) (i j : Nat) :
    (hSwap l i j).length = l.length := by
  simp [hSwap]

theorem getE_hSwap_fst {l : List HEntry} {i j : Nat} (hi : i < l.length)
    (hj : j < l.length) : getE (hSwap l i j) i = getE l j := by
  unfold hSwap
  rcases eq_or_ne j i with rfl | hne
  · rw [getE_set_eq (by simpa using hi)]
  · rw [getE_set_ne (Ne.symm (by omega)), getE_set_eq hi]

theorem getE_hSwap_snd {l : List HEntry} {i j : Nat} (hj : j < l.length) :
    getE (hSwap l i j) j = getE l i := by
  unfold hSwap
  rw [getE_set_eq (by simpa using hj)]

theorem getE_hSwap_other {l : List HEntry} {i j m : Nat} (hmi : m ≠ i) (hmj : m ≠ j) :
    getE (hSwap l i j) m = getE l m := by
  unfold hSwap
  rw [getE_set_ne hmj, getE_set_ne hmi]

theorem getE_mem {l : List HEntry} {i : Nat} (h : i < l.length) : getE l i ∈ l := by
  induction l generalizing i with
  | nil => simp at h
  | cons a t ih =>
    cases i with
    | zero => simp [getE]
    | succ m =>
      have := ih (i := m) (by simpa using h)
      simp [getE] at this ⊢
      right
      exact this

theorem mem_of_mem_set {l : List HEntry} {i : Nat} {x e : HEntry}
    (h : e ∈ l.set i x) : e = x ∨ e ∈ l := by
  induction l generalizing i with
  | nil => simp at h
  | cons a t ih =>
    cases i with
    | zero =>
      have h2 : e = x ∨ e ∈ t := by simpa using h
      rcases h2 with rfl | hm
      · exact Or.inl rfl
      · exact Or.inr (by simp [hm])
    | succ m =>
      have h2 : e = a ∨ e ∈ t.set m x := by simpa using h
      rcases h2 with rfl | hm
      · exact Or.inr (by simp)
      · rcases ih hm with rfl | hm2
        · exact Or.inl rfl
        · exact Or.inr (by simp [hm2])

theorem mem_of_mem_hSwap {l : List HEntry} {i j : Nat} {e : HEntry}
    (hi : i < l.length) (hj : j < l.length) (h : e ∈ hSwap l i j) : e ∈ l := by
  unfold hSwap at h
  rcases mem_of_mem_set h with rfl | h2
  · exact getE_mem hi
  · rcases mem_of_mem_set h2 with rfl | h3
    · exact getE_mem hj
    · exact h3

theorem getE_dropLast {l : List HEntry} {j : Nat} (h : j < l.length - 1) :
    getE l.dropLast j = getE l j := by
  induction l generalizing j with
  | nil => simp [getE]
  | cons a t ih =>
    cases t with
    | nil => simp at h
    | cons b t2 =>
      cases j with
      | zero => simp [getE]
      | succ m =>
        have := ih (j := m) (by simp at h ⊢; omega)
        simpa [getE] using this

theorem getE_append_lt {l : List HEntry} {e : HEntry} {j : Nat} (h : j < l.length) :
    getE (l ++ [e]) j = getE l j := by
  induction l generalizing j with
  | nil => simp at h
  | cons a t ih =>
    cases j with
    | zero => simp [getE]
    | succ m => simpa [getE] using ih (by simpa using h)

/-! #### The chosen child of MinHeapify -/

/-- Case analysis of the smallest-of-three selection: either the node itself
is chosen, or a strictly smaller valid child that is also not greater than the
other valid child. -/
theorem heapifySmallest_spec (l : List HEntry) (i : Nat) :
    (heapifySmallest l i = i ∧
      (∀ c, (c = 2*i+1 ∨ c = 2*i+2) → c < l.length →
        heLess (getE l c) (getE l i) = false)) ∨
    (i < heapifySmallest l i ∧ heapifySmallest l i < l.length ∧
      (heapifySmallest l i = 2*i+1 ∨ heapifySmallest l i = 2*i+2) ∧
      heLess (getE l (heapifySmallest l i)) (getE l i) = true ∧
      (∀ c, (c = 2*i+1 ∨ c = 2*i+2) → c ≠ heapifySmallest l i → c < l.length →
        heLess (getE l c) (getE l (heapifySmallest l i)) = false)) := by
  unfold heapifySmallest
  split_ifs with h1 h2 h3
  · simp only [Bool.and_eq_true, decide_eq_true_eq] at h1 h2
    refine Or.inr ⟨by omega, h2.1, Or.inr rfl, heLess_trans h2.2 h1.2, ?_⟩
    intro c hc hne hcl
    rcases hc with rfl | rfl
    · exact heLess_asymm h2.2
    · omega
  · simp only [Bool.and_eq_true, decide_eq_true_eq, not_and] at h1 h2
    refine Or.inr ⟨by omega, h1.1, Or.inl rfl, h1.2, ?_⟩
    intro c hc hne hcl
    rcases hc with rfl | rfl
    · omega
    · exact Bool.eq_false_iff.mpr (fun hcon => (h2 hcl) hcon)
  · simp only [Bool.and_eq_true, decide_eq_true_eq, not_and] at h1 h3
    refine Or.inr ⟨by omega, h3.1, Or.inr rfl, h3.2, ?_⟩
    intro c hc hne hcl
    rcases hc with rfl | rfl
    · have hle : heLess (getE l (2*i+1)) (getE l i) = false :=
        Bool.eq_false_iff.mpr (fun hcon => (h1 hcl) hcon)
      exact heLE_of_heLess_of_heLE h3.2 hle
    · omega
  · simp only [Bool.and_eq_true, decide_eq_true_eq, not_and] at h1 h3
    refine Or.inl ⟨rfl, ?_⟩
    intro c hc hcl
    rcases hc with rfl | rfl
    · exact Bool.eq_false_iff.mpr (fun hcon => (h1 hcl) hcon)
    · exact Bool.eq_false_iff.mpr (fun hcon => (h3 hcl) hcon)

/-! #### Sift-down correctness -/

/-- A child of index i is one of 2i+1 and 2i+2 (parent arithmetic). -/
theorem child_cases {i j : Nat} (hj : 0 < j) (h : (j-1)/2 = i) :
    j = 2*i+1 ∨ j = 2*i+2 := by omega

/-- Precondition of MinHeapify from index i: every parent edge whose parent
is not i holds, and when i itself has a parent, that parent is not above the
children of i. -/
def DownExcept (l : List HEntry) (i : Nat) : Prop :=
  (∀ j, 0 < j → j < l.length → (j-1)/2 ≠ i →
    heLess (getE l j) (getE l ((j-1)/2)) = false) ∧
  (0 < i → ∀ j, j < l.length → (j-1)/2 = i →
    heLess (getE l j) (getE l ((i-1)/2)) = false)

theorem length_minHeapifyF (fuel : Nat) : ∀ (l : List HEntry) (i : Nat),
    (MinHeapifyF fuel l i).length = l.length := by
  induction fuel with
  | zero => intro l i; rfl
  | succ fuel ih =>
    intro l i
    unfold MinHeapifyF
    by_cases hs : heapifySmallest l i ≠ i
    · rw [if_pos hs, ih, length_hSwap]
    · rw [if_neg hs]

theorem mem_minHeapifyF (fuel : Nat) : ∀ (l : List HEntry) (i : Nat) (e : HEntry),
    i < l.length → e ∈ MinHeapifyF fuel l i → e ∈ l := by
  induction fuel with
  | zero => intro l i e _ h; exact h
  | succ fuel ih =>
    intro l i e hi h
    unfold MinHeapifyF at h
    rcases heapifySmallest_spec l i with ⟨hsi, _⟩ | ⟨his, hsn, _, _, _⟩
    · rw [if_neg (by omega)] at h
      exact h
    · rw [if_pos (by omega)] at h
      have hmem := ih (hSwap l i (heapifySmallest l i)) (heapifySmallest l i) e
        (by rw [length_hSwap]; exact hsn) h
      exact mem_of_mem_hSwap hi hsn hmem

theorem heapProp_minHeapifyF (fuel : Nat) : ∀ (l : List HEntry) (i : Nat),
    l.length - i ≤ fuel → DownExcept l i → HeapProp (MinHeapifyF fuel l i) := by
  induction fuel with
  | zero =>
    intro l i hfuel hde
    show HeapProp l
    intro j hj hjl
    have : (j-1)/2 ≠ i := by omega
    exact hde.1 j hj hjl this
  | succ fuel ih =>
    intro l i hfuel hde
    unfold MinHeapifyF
    rcases heapifySmallest_spec l i with ⟨hsi, hchild⟩ | ⟨his, hsn, hmem, hstrict, hother⟩
    · rw [if_neg (by omega)]
      intro j hj hjl
      by_cases hpj : (j-1)/2 = i
      · rw [hpj]
        exact hchild j (child_cases hj hpj) hjl
      · exact hde.1 j hj hjl hpj
    · rw [if_pos (by omega)]
      set s := heapifySmallest l i with hs
      have hi : i < l.length := lt_trans his hsn
      have hps : (s-1)/2 = i := by rcases hmem with h | h <;> omega
      apply ih
      · rw [length_hSwap]; omega
      constructor
      · -- part 1 for the swapped list at s
        intro j hj hjl hpjne
        rw [length_hSwap] at hjl
        rcases eq_or_ne j s with rfl | hjs
        · -- the edge from i into s
          rw [hps, getE_hSwap_snd hsn, getE_hSwap_fst hi hsn]
          exact heLess_asymm hstrict
        rcases eq_or_ne j i with rfl | hji
        · -- the edge from the parent of i into i
          have hj0 : 0 < j := hj
          have hpi_ne_i : (j-1)/2 ≠ j := by omega
          have hpi_ne_s : (j-1)/2 ≠ s := by omega
          rw [getE_hSwap_fst hi hsn, getE_hSwap_other hpi_ne_i hpi_ne_s]
          exact hde.2 hj0 s hsn hps
        · -- edges not leaving i or s
          rw [getE_hSwap_other hji hjs]
          by_cases hpj : (j-1)/2 = i
          · -- j is the sibling of s below i
            have hjne : j ≠ s := hjs
            rw [hpj, getE_hSwap_fst hi hsn]
            exact hother j (child_cases hj hpj) hjne hjl
          · have hpj_ne_i : (j-1)/2 ≠ i := hpj
            have hpj_ne_s : (j-1)/2 ≠ s := hpjne
            rw [getE_hSwap_other hpj_ne_i hpj_ne_s]
            exact hde.1 j hj hjl hpj
      · -- part 2 for the swapped list at s
        intro _ j hjl hpj
        rw [length_hSwap] at hjl
        have hj1 : 2*s+1 ≤ j := by omega
        have hji : j ≠ i := by omega
        have hjs : j ≠ s := by omega
        rw [hps, getE_hSwap_fst hi hsn, getE_hSwap_other hji hjs]
        have hedge := hde.1 j (by omega) hjl (by omega)
        rw [hpj] at hedge
        exact hedge

/-! #### Root minimality and membership -/

theorem heapProp_root_le {l : List HEntry} (hp : HeapProp l) :
    ∀ i, i < l.length → heLess (getE l i) (getE l 0) = false := by
  intro i
  induction i using Nat.strong_induction_on with
  | _ i ihs =>
    intro hi
    rcases Nat.eq_zero_or_pos i with rfl | hpos
    · exact heLess_irrefl _
    · have hparent := hp i hpos hi
      have hroot := ihs ((i-1)/2) (by omega) (by omega)
      exact heLE_trans hroot hparent

theorem mem_exists_getE {l : List HEntry} {e : HEntry} (h : e ∈ l) :
    ∃ i, i < l.length ∧ getE l i = e := by
  induction l with
  | nil => simp at h
  | cons a t ih =>
    rcases (by simpa using h : e = a ∨ e ∈ t) with rfl | hm
    · exact ⟨0, by simp [getE]⟩
    · obtain ⟨i, hi, hg⟩ := ih hm
      exact ⟨i+1, by simpa using hi, by simpa [getE] using hg⟩

theorem mem_of_mem_dropLast {l : List HEntry} {e : HEntry} (h : e ∈ l.dropLast) :
    e ∈ l := by
  induction l with
  | nil => simp at h
  | cons a t ih =>
    cases t with
    | nil => simp at h
    | cons b t2 =>
      rcases (by simpa using h : e = a ∨ e ∈ (b :: t2).dropLast) with rfl | hm
      · simp
      · simp [ih hm]

/-! #### Remove returns the minimum and preserves the invariant -/

theorem Remove_spec {l : List HEntry} {e : HEntry} {rest : List HEntry}
    (hp : HeapProp l) (h : Remove l = some (e, rest)) :
    HeapProp rest ∧ ∀ f ∈ rest, heLess f e = false := by
  cases l with
  | nil => simp [Remove, RemoveChecked] at h
  | cons a t =>
    have he : e = a ∧
        rest = MinHeapifyF ((a :: t).set 0 (getE (a :: t) (t.length)) |>.dropLast).length
          ((a :: t).set 0 (getE (a :: t) (t.length)) |>.dropLast) 0 := by
      simp [Remove, RemoveChecked] at h
      exact ⟨h.1.symm, h.2.symm⟩
    obtain ⟨hea, hrest⟩ := he
    set popped := ((a :: t).set 0 (getE (a :: t) (t.length)) |>.dropLast) with hpop
    have hplen : popped.length = t.length := by
      rw [hpop]
      simp
    have hde : DownExcept popped 0 := by
      constructor
      · intro j hj hjl hpj
        rw [hplen] at hjl
        have hjlt : j < ((a :: t).set 0 (getE (a :: t) (t.length))).length - 1 := by
          simp
          omega
        have hpjlt : (j-1)/2 < ((a :: t).set 0 (getE (a :: t) (t.length))).length - 1 := by
          simp
          omega
        rw [hpop, getE_dropLast hjlt, getE_dropLast hpjlt,
            getE_set_ne (by omega), getE_set_ne (by omega)]
        exact hp j hj (by simp; omega)
      · intro h0
        omega
    constructor
    · rw [hrest]
      exact heapProp_minHeapifyF popped.length popped 0 (by omega) hde
    · intro f hf
      rw [hrest] at hf
      have hfp : f ∈ popped := by
        by_cases hz : popped.length = 0
        · have hnil : popped = [] := List.length_eq_zero.mp hz
          rw [hnil] at hf
          simp [MinHeapifyF] at hf
        · exact mem_minHeapifyF popped.length popped 0 f (Nat.pos_of_ne_zero hz) hf
      have hfl : f ∈ (a :: t) := by
        have h1 : f ∈ (a :: t).set 0 (getE (a :: t) (t.length)) := mem_of_mem_dropLast hfp
        rcases mem_of_mem_set h1 with hfe | h2
        · rw [hfe]
          exact getE_mem (by simp)
        · exact h2
      obtain ⟨i, hi, hg⟩ := mem_exists_getE hfl
      have hroot := heapProp_root_le hp i hi
      rw [hg] at hroot
      rw [hea]
      simpa [getE] using hroot

/-! #### Sift-up correctness and Insert -/

theorem getE_of_le {l : List HEntry} {i : Nat} (h : l.length ≤ i) :
    getE l i = (none, 0) := by
  induction l generalizing i with
  | nil => simp [getE]
  | cons a t ih =>
    cases i with
    | zero => simp at h
    | succ m => simpa [getE] using ih (by simpa using h)

theorem getE_append_last (l : List HEntry) (e : HEntry) :
    getE (l ++ [e]) l.length = e := by
  induction l with
  | nil => simp [getE]
  | cons a t ih => simpa [getE] using ih

/-- Precondition of the sift-up loop from index i: every parent edge whose
child is not i holds, and when i has a parent, that parent is not above the
children of i. -/
def UpExcept (l : List HEntry) (i : Nat) : Prop :=
  (∀ j, 0 < j → j < l.length → j ≠ i →
    heLess (getE l j) (getE l ((j-1)/2)) = false) ∧
  (0 < i → ∀ c, c < l.length → (c-1)/2 = i →
    heLess (getE l c) (getE l ((i-1)/2)) = false)

theorem heapProp_siftUpF (fuel : Nat) : ∀ (l : List HEntry) (i : Nat),
    i ≤ fuel → UpExcept l i → HeapProp (siftUpF fuel l i) := by
  induction fuel with
  | zero =>
    intro l i hfuel hue
    show HeapProp l
    intro j hj hjl
    exact hue.1 j hj hjl (by omega)
  | succ fuel ih =>
    intro l i hfuel hue
    unfold siftUpF
    by_cases hcond : 0 < i ∧ heLess (getE l i) (getE l ((i-1)/2)) = true
    case neg =>
      rw [if_neg (by simpa [Bool.and_eq_true, decide_eq_true_eq, not_and] using hcond)]
      intro j hj hjl
      rcases eq_or_ne j i with rfl | hji
      · rw [not_and] at hcond
        exact Bool.eq_false_iff.mpr (hcond hj)
      · exact hue.1 j hj hjl hji
    case pos =>
      rw [if_pos (by simp [hcond.1, hcond.2])]
      obtain ⟨hipos, hstrict⟩ := hcond
      have hi : i < l.length := by
        by_contra hge
        rw [getE_of_le (by omega)] at hstrict
        simp [heLess, hLess] at hstrict
      have hpil : (i-1)/2 < l.length := by omega
      apply ih
      · omega
      constructor
      · -- part 1 for the swapped list at the parent of i
        intro j hj hjl hjp
        rw [length_hSwap] at hjl
        rcases eq_or_ne j i with rfl | hji
        · -- the edge from the parent into the old child slot
          have hpj : (j-1)/2 ≠ j := by omega
          rw [getE_hSwap_fst hi hpil, getE_hSwap_snd hpil]
          exact heLess_asymm hstrict
        by_cases hpj : (j-1)/2 = i
        · -- a child of i keeps its edge against the value arriving at i
          have hjne2 : j ≠ (i-1)/2 := by omega
          rw [getE_hSwap_other hji hjne2, hpj, getE_hSwap_fst hi hpil]
          exact hue.2 hipos j hjl hpj
        by_cases hpj2 : (j-1)/2 = (i-1)/2
        · -- the sibling of i under the same parent
          have hjne2 : j ≠ (i-1)/2 := by omega
          rw [getE_hSwap_other hji hjne2, hpj2, getE_hSwap_snd hpil]
          have hedge := hue.1 j hj hjl hji
          rw [hpj2] at hedge
          exact hLE_of_hLess_of_hLE hstrict hedge
        · -- an edge not touching i or its parent
          have hjne2 : j ≠ (i-1)/2 := hjp
          rw [getE_hSwap_other hji hjne2, getE_hSwap_other hpj hpj2]
          exact hue.1 j hj hjl hji
      · -- part 2 for the swapped list at the parent of i
        intro hppos c hcl hcp
        rw [length_hSwap] at hcl
        have hppi : ((i-1)/2 - 1)/2 < (i-1)/2 := by omega
        have hne1 : ((i-1)/2 - 1)/2 ≠ i := by omega
        have hne2 : ((i-1)/2 - 1)/2 ≠ (i-1)/2 := by omega
        rw [getE_hSwap_other hne1 hne2]
        rcases eq_or_ne c i with hci | hci
        · rw [hci, getE_hSwap_fst hi hpil]
          have hedge := hue.1 ((i-1)/2) hppos hpil (by omega)
          exact hedge
        · have hcpi : c ≠ (i-1)/2 := by omega
          rw [getE_hSwap_other hci hcpi]
          have hedge1 := hue.1 c (by omega) hcl hci
          rw [hcp] at hedge1
          have hedge2 := hue.1 ((i-1)/2) hppos hpil (by omega)
          exact hLE_trans hedge2 hedge1

theorem Insert_spec {l : List HEntry} (p : HPrio) (id : Nat) (hp : HeapProp l) :
    ∃ l2, Insert l p id = some l2 ∧ HeapProp l2 := by
  unfold Insert DecreasePriority
  have hcheck : hLess (getE (l ++ [((none : HPrio), id)]) l.length).1 p = false := by
    rw [getE_append_last]
    rfl
  rw [hcheck, if_neg (by simp)]
  refine ⟨_, rfl, ?_⟩
  unfold siftUp
  apply heapProp_siftUpF
  · exact Nat.le_refl _
  constructor
  · intro j hj hjl hjne
    have hjlen : j < l.length + 1 := by simpa using hjl
    have hjlt : j < l.length := by
      rcases Nat.lt_or_ge j l.length with h1 | h1
      · exact h1
      · omega
    have hpjlt : (j-1)/2 < l.length := by omega
    have hpne : (j-1)/2 ≠ l.length := by omega
    rw [getE_set_ne hjne, getE_set_ne hpne, getE_append_lt hjlt, getE_append_lt hpjlt]
    exact hp j hj hjlt
  · intro _ c hcl hcp
    have : c < l.length + 1 := by simpa using hcl
    omega

theorem InsertList_heapProp : ∀ (ps : List HPrio) (l : List HEntry) (nid : Nat)
    (l2 : List HEntry), HeapProp l → InsertList l nid ps = some l2 → HeapProp l2 := by
  intro ps
  induction ps with
  | nil =>
    intro l nid l2 hp h
    simp [InsertList] at h
    rw [← h]
    exact hp
  | cons p rest ih =>
    intro l nid l2 hp h
    obtain ⟨lmid, hmid, hpmid⟩ := Insert_spec p nid hp
    unfold InsertList at h
    rw [hmid] at h
    exact ih lmid (nid + 1) l2 hpmid h

/-- Iterated Remove: the heap left after k removals. -/
def RemoveK : Nat → List HEntry → Option (List HEntry)
  | 0, l => some l
  | k + 1, l =>
    match Remove l with
    | none => none
    | some (_, rest) => RemoveK k rest

theorem RemoveK_heapProp : ∀ (k : Nat) (l l2 : List HEntry),
    HeapProp l → RemoveK k l = some l2 → HeapProp l2 := by
  intro k
  induction k with
  | zero =>
    intro l l2 hp h
    simp [RemoveK] at h
    rw [← h]
    exact hp
  | succ k ih =>
    intro l l2 hp h
    unfold RemoveK at h
    cases hr : Remove l with
    | none => rw [hr] at h; simp at h
    | some pr =>
      obtain ⟨e, rest⟩ := pr
      rw [hr] at h
      simp at h
      exact ih rest l2 (Remove_spec hp hr).1 h

theorem heapProp_nil : HeapProp [] := by
  intro j hj hjl
  simp at hjl

/-! ### The Enhanced Hoshen-Kopelman cluster labeller (cluster_label.cc)

The label cube is an arma ucube in column-major layout: cell (i,j,k) sits at
linear index i + n_rows * (j + n_cols * k), and the sweep loops (k outer, j
middle, i inner) visit cells exactly in linear order.  The size-and-link
vector n is modelled as a total function defaulting to 0 (the C++ allocates
n_elem/2 zero-filled entries, enough for the runs considered here); the
bounding-box matrices are modelled as total functions defaulting to the zero
triple (the C++ leaves unwritten rows uninitialised and zeroes merged rows;
rows of genuine labels are written before they are read).  The static cache
of HKProper (prev_label, prev_proper) is part of the sweep state, with none
standing for the initial -1U sentinel. -/

/-- The sweep state of EnhancedHoshenKopelman: the label cube, the
size-and-link vector, the static cache of HKProper, the largest label
assigned so far and the two bounding-box tables. -/
structure HKSweep where
  lcube : List Nat
  n : Nat → Int
  cacheLabel : Option Nat
  cacheProper : Nat
  largest : Nat
  bmin : Nat → Nat × Nat × Nat
  bmax : Nat → Nat × Nat × Nat

/-- The while loop of HKProper: follow negative links to the proper label.
Every link points to a strictly smaller label (merges link to the smallest
participating label and path compression links to a chain end), so the label
itself bounds the number of steps and serves as fuel. -/
def hkChainEnd (n : Nat → Int) : Nat → Nat → Nat
  | 0, label => label
  | fuel + 1, label =>
    if n label < 0 then hkChainEnd n fuel (-(n label)).toNat else label

/-- HKProper: return the cached proper label when the argument equals the
cached label; otherwise walk the chain, compress the path (point the label
directly at its proper label) and refresh the cache. -/
def HKProper (st : HKSweep) (label : Nat) : Nat × HKSweep :=
  if st.cacheLabel == some label then (st.cacheProper, st)
  else
    let proper := hkChainEnd st.n label label
    let n2 : Nat → Int :=
      if proper ≠ label then fun m => if m == label then -(proper : Int) else st.n m
      else st.n
    (proper, { st with n := n2, cacheLabel := some label, cacheProper := proper })

/-- The dimensions of a label cube. -/
structure HKDims where
  nr : Nat
  nc : Nat
  ns : Nat

/-- Linear index of cell (i,j,k) in the arma cube. -/
def hkIdx (d : HKDims) (i j k : Nat) : Nat := i + d.nr * (j + d.nc * k)

/-- The cell (i,j,k) of a linear index. -/
def hkCell (d : HKDims) (idx : Nat) : Nat × Nat × Nat :=
  (idx % d.nr, (idx / d.nr) % d.nc, idx / (d.nr * d.nc))

/-- The thirteen already-swept neighbour offsets of PreviousNeighbours, in
source order nnl(0) to nnl(12); each is guarded by the boundary conditions of
the source, which hold exactly when the neighbour cell lies inside the cube. -/
def hkPrevOffsets : List (Int × Int × Int) :=
  [(-1,-1,-1),(0,-1,-1),(1,-1,-1),(-1,0,-1),(0,0,-1),(1,0,-1),(-1,1,-1),(0,1,-1),(1,1,-1),
   (-1,-1,0),(0,-1,0),(1,-1,0),(-1,0,0)]

/-- The raw label PreviousNeighbours reads for one offset: the stored label
when the neighbour is inside the cube, 0 otherwise. -/
def hkNeighbourLabel (d : HKDims) (lcube : List Nat) (i j k : Nat)
    (o : Int × Int × Int) : Nat :=
  let a : Int := (i : Int) + o.1
  let b : Int := (j : Int) + o.2.1
  let c : Int := (k : Int) + o.2.2
  if 0 ≤ a && a < (d.nr : Int) && 0 ≤ b && b < (d.nc : Int) && 0 ≤ c && c < (d.ns : Int)
  then lcube.getD (hkIdx d a.toNat b.toNat c.toNat) 0
  else 0

/-- Apply HKProper to each element of a list in order, threading the sweep
state (used by PreviousNeighbours and by the transform call on nnl). -/
def hkProperList (st : HKSweep) : List Nat → List Nat × HKSweep
  | [] => ([], st)
  | x :: xs =>
    let (p, st2) := HKProper st x
    let (ps, st3) := hkProperList st2 xs
    (p :: ps, st3)

/-- Insert a label into an ascending sorted list without duplicates
(the effect of arma unique on the non-zero labels). -/
def hkSortedInsert (x : Nat) : List Nat → List Nat
  | [] => [x]
  | y :: ys =>
    if x < y then x :: y :: ys
    else if x == y then y :: ys
    else y :: hkSortedInsert x ys

/-- The ascending list of distinct non-zero labels among the neighbour
labels (arma unique of the non-zero elements). -/
def hkUniqNon0 (xs : List Nat) : List Nat :=
  (xs.filter (fun x => x ≠ 0)).foldl (fun acc x => hkSortedInsert x acc) []

/-- Componentwise minimum of bounding-box corners. -/
def triMin (a b : Nat × Nat × Nat) : Nat × Nat × Nat :=
  (min a.1 b.1, min a.2.1 b.2.1, min a.2.2 b.2.2)

/-- Componentwise maximum of bounding-box corners. -/
def triMax (a b : Nat × Nat × Nat) : Nat × Nat × Nat :=
  (max a.1 b.1, max a.2.1 b.2.1, max a.2.2 b.2.2)

/-- Update a total function at one argument. -/
def fnSet {β : Type} (f : Nat → β) (x : Nat) (v : β) : Nat → β :=
  fun m => if m == x then v else f m

/-- Process one flagged site of the sweep (the body of the triple loop of
EnhancedHoshenKopelman): read the proper labels of the thirteen already-swept
neighbours, properise them again (the transform call), reduce to the sorted
distinct non-zero labels and dispatch on their number: a fresh label, a
single-cluster extension, or a merge onto the smallest label. -/
def hkProcessSite (d : HKDims) (st : HKSweep) (idx : Nat) : HKSweep :=
  let cell := hkCell d idx
  let i := cell.1
  let j := cell.2.1
  let k := cell.2.2
  let raw := hkPrevOffsets.map (hkNeighbourLabel d st.lcube i j k)
  let (nnl, st1) := hkProperList st raw
  let (nnl2, st2) := hkProperList st1 nnl
  let uniq := hkUniqNon0 nnl2
  match uniq with
  | [] =>
    let lab := st2.largest + 1
    { st2 with
      lcube := st2.lcube.set idx lab,
      largest := lab,
      n := fnSet st2.n lab (st2.n lab + 1),
      bmin := fnSet st2.bmin lab (i, j, k),
      bmax := fnSet st2.bmax lab (i, j, k) }
  | [lab] =>
    { st2 with
      lcube := st2.lcube.set idx lab,
      n := fnSet st2.n lab (st2.n lab + 1),
      bmin := fnSet st2.bmin lab (triMin (i, j, k) (st2.bmin lab)),
      bmax := fnSet st2.bmax lab (triMax (i, j, k) (st2.bmax lab)) }
  | lab :: rest =>
    let mergedSize := st2.n lab + 1 + (rest.map st2.n).sum
    let allMin := (uniq.map st2.bmin).foldl triMin (i, j, k)
    let allMax := (uniq.map st2.bmax).foldl triMax (i, j, k)
    let n3 := rest.foldl (fun f x => fnSet f x (-(lab : Int))) (fnSet st2.n lab mergedSize)
    let bmin3 := rest.foldl (fun f x => fnSet f x (0, 0, 0))
      (fnSet st2.bmin lab allMin)
    let bmax3 := rest.foldl (fun f x => fnSet f x (0, 0, 0))
      (fnSet st2.bmax lab allMax)
    { st2 with lcube := st2.lcube.set idx lab, n := n3, bmin := bmin3, bmax := bmax3 }

/-- Sweep a list of cells in order, processing the flagged ones. -/
def hkSweepCells (d : HKDims) (cells : List Nat) (st : HKSweep) : HKSweep :=
  cells.foldl
    (fun st idx => if st.lcube.getD idx 0 ≠ 0 then hkProcessSite d st idx else st) st

/-- The transform of HKCheck: replace every stored label by its proper label,
threading the HKProper state (cache and links) through the cells in order.
The consistency assertion of HKCheck is a ghost check and is not modelled. -/
def hkCheckTransform (st : HKSweep) : HKSweep :=
  let (labs, st2) := hkProperList st st.lcube
  { st2 with lcube := labs }

/-- Stable descending sort of the label indices 0 to len-1 by cluster size
(arma sort_index with the descend option; ties are broken by index here,
which the runs below never exercise). -/
def hkSortIdxDescend (n : Nat → Int) (len : Nat) : List Nat :=
  (List.range len).foldl (fun acc x => descInsert x acc) []
where
  /-- Insert an index into the list sorted by decreasing size. -/
  descInsert (x : Nat) : List Nat → List Nat
    | [] => [x]
    | y :: ys => if n x > n y then x :: y :: ys else y :: descInsert x ys

/-- The inclusive bounding-box volume of a label. -/
def hkBBoxProd (st : HKSweep) (lab : Nat) : Nat :=
  ((st.bmax lab).1 - (st.bmin lab).1 + 1) *
    ((st.bmax lab).2.1 - (st.bmin lab).2.1 + 1) *
    ((st.bmax lab).2.2 - (st.bmin lab).2.2 + 1)

/-- The percolation walk: traverse the labels in descending order of size and
record them while their bounding box fills the whole cube, stopping at the
first label whose box does not. -/
def hkPercolating (d : HKDims) (st : HKSweep) : List Nat :=
  (hkSortIdxDescend st.n (d.nr * d.nc * d.ns / 2)).takeWhile
    (fun x => hkBBoxProd st x == d.nr * d.nc * d.ns)

/-- The final pass of EnhancedHoshenKopelman: rewrite every cell to 1 when
its proper label (computed by an HKProper call that threads the cache and
link state) lies among the recorded percolating labels, else to 0. -/
def hkFinalPass (perc : List Nat) : HKSweep → List Nat → List Nat
  | _, [] => []
  | st, lab :: rest =>
    let (proper, st2) := HKProper st lab
    (if proper ∈ perc then 1 else 0) :: hkFinalPass perc st2 rest

/-- The state of the HKProper thread after the final pass has processed a
prefix of the cells (used to characterise the pass pointwise). -/
def hkFinalState (st : HKSweep) : List Nat → HKSweep
  | [] => st
  | lab :: rest => hkFinalState (HKProper st lab).2 rest

/-- The result of EnhancedHoshenKopelman: the post-check sweep state, the
recorded percolating labels and the output cube. -/
structure HKResult where
  final : HKSweep
  percolating : List Nat
  out : List Nat

/-- EnhancedHoshenKopelman (cluster_label.cc): single sweep in linear order,
HKCheck properisation, percolation walk, final rewrite. -/
def EnhancedHoshenKopelman (d : HKDims) (flagged : List Nat) : HKResult :=
  let st0 : HKSweep :=
    ⟨flagged, fun _ => 0, none, 0, 0, fun _ => (0, 0, 0), fun _ => (0, 0, 0)⟩
  let st1 := hkSweepCells d (List.range (d.nr * d.nc * d.ns)) st0
  let st2 := hkCheckTransform st1
  let perc := hkPercolating d st2
  ⟨st2, perc, hkFinalPass perc st2 st2.lcube⟩

/-! #### Characterisation of the final pass of the cluster labeller -/

theorem hkFinalPass_getD (perc : List Nat) : ∀ (labs : List Nat) (st : HKSweep) (i : Nat),
    i < labs.length →
    (hkFinalPass perc st labs).getD i 9 =
      if (HKProper (hkFinalState st (labs.take i)) (labs.getD i 0)).1 ∈ perc
      then 1 else 0 := by
  intro labs
  induction labs with
  | nil =>
    intro st i hi
    simp at hi
  | cons lab rest ih =>
    intro st i hi
    cases i with
    | zero =>
      simp [hkFinalPass, hkFinalState]
    | succ m =>
      have hm : m < rest.length := by simpa using hi
      have := ih (HKProper st lab).2 m hm
      simpa [hkFinalPass, hkFinalState] using this

theorem hkPercolating_spans {d : HKDims} {st : HKSweep} {x : Nat}
    (h : x ∈ hkPercolating d st) : hkBBoxProd st x = d.nr * d.nc * d.ns := by
  have := List.mem_takeWhile_imp h
  simpa using this

/-! ### Points, ternary images and neighbourhoods
(points/point.h, images/ternary_image.h, neighbours/twenty_six_neighbour_calculator.h,
morphology/morphology.cc)

Coordinates are modelled as integers: the C++ Point stores uint16 coordinates
and the neighbour calculator computes coordinate - 1, which wraps to 65535 at
the cube edge; both the wrapped 65535 and the integer -1 fail the image bounds
check, so for cubes with every dimension below 65535 the two models agree. -/

/-- A voxel coordinate triple (points/voxel.h: Voxel = Point of three
coordinates). -/
abbrev Pt := Int × Int × Int

/-- The 26 neighbour offsets in the enumeration order of
TwentySixNeighbourCalculator.GetNeighbours: dx outermost, dz innermost, the
centre (1,1,1) excluded by the abs test. -/
def offsets26 : List Pt :=
  [(-1,-1,-1),(-1,-1,0),(-1,-1,1),(-1,0,-1),(-1,0,0),(-1,0,1),(-1,1,-1),(-1,1,0),(-1,1,1),
   (0,-1,-1),(0,-1,0),(0,-1,1),(0,0,-1),(0,0,1),(0,1,-1),(0,1,0),(0,1,1),
   (1,-1,-1),(1,-1,0),(1,-1,1),(1,0,-1),(1,0,0),(1,0,1),(1,1,-1),(1,1,0),(1,1,1)]

/-- TwentySixNeighbourCalculator.GetNeighbours. -/
def neighbours26 (p : Pt) : List Pt :=
  offsets26.map (fun o => (p.1 + o.1, p.2.1 + o.2.1, p.2.2 + o.2.2))

/-- A ternary image (images/ternary_image.h): an arma cube of byte values in
column-major layout (row index fastest), value 0 = pore (object), 1 = solid
surface (contour), 2 = solid bulk. -/
structure TernaryImage where
  nr : Nat
  nc : Nat
  ns : Nat
  vals : List Nat

/-- Bounds check of TernaryImage.IsOffLimitsPoint, negated. -/
def inCube (img : TernaryImage) (p : Pt) : Bool :=
  0 ≤ p.1 && p.1 < (img.nr : Int) && 0 ≤ p.2.1 && p.2.1 < (img.nc : Int) &&
  0 ≤ p.2.2 && p.2.2 < (img.ns : Int)

/-- The arma linear index of an in-cube point (ternary_image.h
ConvertToLinearIndex): row + n_rows * (col + n_cols * slice). -/
def linIdx (img : TernaryImage) (p : Pt) : Nat :=
  (p.1 + (img.nr : Int) * (p.2.1 + (img.nc : Int) * p.2.2)).toNat

/-- The stored byte at a point (reads of out-of-cube points never happen:
both object and contour tests check bounds first). -/
def valAt (img : TernaryImage) (p : Pt) : Nat := img.vals.getD (linIdx img p) 2

/-- TernaryImage.IsObjectPoint: in bounds and value 0 (pore). -/
def IsObjectPoint (img : TernaryImage) (p : Pt) : Bool :=
  inCube img p && valAt img p == 0

/-- TernaryImage.IsContourPoint: in bounds and value 1 (solid surface). -/
def IsContourPoint (img : TernaryImage) (p : Pt) : Bool :=
  inCube img p && valAt img p == 1

/-- The point with a given arma linear index. -/
def ptOfIdx (img : TernaryImage) (idx : Nat) : Pt :=
  ((idx % img.nr : Nat), ((idx / img.nr) % img.nc : Nat), (idx / (img.nr * img.nc) : Nat))

/-- The pipeline input to the skeletonizer (morphology.cc GetSurfaceToVolume
marking applied to a binary rock mask, 1 = rock and 0 = pore): pore stays 0, a
rock voxel with at least one in-cube pore 26-neighbour becomes 1 (solid
surface), any other rock voxel becomes 2 (solid bulk); neighbours outside the
cube count as rock. -/
def ternaryOfRock (nr nc ns : Nat) (rock : List Nat) : TernaryImage :=
  let img : TernaryImage := ⟨nr, nc, ns, rock⟩
  let mark : Nat → Nat := fun idx =>
    if rock.getD idx 0 == 0 then 0
    else if (neighbours26 (ptOfIdx img idx)).any
        (fun q => inCube img q && img.vals.getD (linIdx img q) 1 == 0) then 1
    else 2
  ⟨nr, nc, ns, (List.range (nr * nc * ns)).map mark⟩

/-! ### Annotations (annotations/annotation.h) -/

/-- Annotation status (annotations/annotation_status.h): 0 = initial,
1 = inserted, 2 = removed. -/
abbrev AnnStatus := Nat

/-- A per-voxel skeleton annotation (annotations/annotation.h).  Fields d0,
d1, d2 are the per-axis accumulated displacements (int32 in the source); the
point field holds the owning seed point, exactly as in the source. -/
structure Ann where
  distance : Nat
  d0 : Int
  d1 : Int
  d2 : Int
  contour : Nat
  pixel : Nat
  tag : Nat
  status : AnnStatus
  point : Pt
deriving DecidableEq

/-- The default-constructed Annotation: distance int32-max, displacements
filled with int32-max, labels and tag 0, status initial, zero point. -/
def annDefault : Ann :=
  ⟨2147483647, 2147483647, 2147483647, 2147483647, 0, 0, 0, 0, ((0:Int), (0:Int), (0:Int))⟩

/-- The annotated image (images/annotated_image.h): an unordered map from
points to annotations, modelled as an association list keyed by the arma
linear index of the point. -/
abbrev AnnMap := List (Nat × Ann)

/-- AnnotatedImage.HasAnnotation / ReadAnnotation lookup. -/
def annFind : AnnMap → Nat → Option Ann
  | [], _ => none
  | (k, a) :: rest, idx => if k == idx then some a else annFind rest idx

/-- AnnotatedImage.ModifyAnnotation: replace the annotation of a present
point; none models the throw on an absent point. -/
def annModify : AnnMap → Nat → Ann → Option AnnMap
  | [], _, _ => none
  | (k, a) :: rest, idx, a2 =>
    if k == idx then some ((k, a2) :: rest)
    else (annModify rest idx a2).map (fun m => (k, a) :: m)

/-- AnnotatedImage.AddPointAnnotation: insert a fresh annotation; none models
the throw on an already-annotated point. -/
def annAdd (m : AnnMap) (idx : Nat) (a : Ann) : Option AnnMap :=
  match annFind m idx with
  | some _ => none
  | none => some ((idx, a) :: m)

/-! ### The quadratic path calculator (paths/quadratic_path_calculator.h) -/

/-- QuadraticPathCalculator.GetConcatenatedPathCost: the candidate squared
path length of extending the origin path to the neighbour, computed from the
per-axis accumulated displacements of the origin incremented by the absolute
coordinate deltas. -/
def GetConcatenatedPathCost (oa : Ann) (origin nb : Pt) : Nat :=
  (((oa.d0 + (nb.1 - origin.1).natAbs) ^ 2 +
    (oa.d1 + (nb.2.1 - origin.2.1).natAbs) ^ 2 +
    (oa.d2 + (nb.2.2 - origin.2.2).natAbs) ^ 2 : Int)).toNat

/-- QuadraticPathCalculator.UpdatePointPathCost: overwrite the neighbour
annotation displacements with the incremented origin displacements and its
distance with their squared sum. -/
def UpdatePointPathCost (oa : Ann) (origin nb : Pt) (na : Ann) : Ann :=
  let e0 : Int := oa.d0 + (nb.1 - origin.1).natAbs
  let e1 : Int := oa.d1 + (nb.2.1 - origin.2.1).natAbs
  let e2 : Int := oa.d2 + (nb.2.2 - origin.2.2).natAbs
  { na with d0 := e0, d1 := e1, d2 := e2,
            distance := ((e0^2 + e1^2 + e2^2 : Int)).toNat }

/-! ### The skeletonizer priority queue (heaps/binary_heap.h with
skeletonizer_key.h keys)

BinaryHeap is a map-assisted binary heap of SkeletonizerKey values
(distance, counter, point), ordered lexicographically by (distance, counter);
the key-to-index map lets IncreasePriority locate a key, and is modelled by a
positional search with the key equality of the source (distance and counter
only). -/

/-- A skeletonizer key (skeletonizer_key.h): distance, insertion counter and
the point itself. -/
structure BKey where
  dist : Nat
  ctr : Nat
  pt : Pt
deriving DecidableEq

/-- The default-constructed SkeletonizerKey: maximal distance and counter
(uint32 maxima), used by BinaryHeap.Insert as the transient sentinel. -/
def bkeyDefault : BKey := ⟨4294967295, 4294967295, ((0:Int), (0:Int), (0:Int))⟩

/-- SkeletonizerKey operator less-than: lexicographic on (distance, counter). -/
def bkLess (a b : BKey) : Bool :=
  a.dist < b.dist || (a.dist == b.dist && a.ctr < b.ctr)

/-- SkeletonizerKey operator equality: distance and counter only (the
unordered map key semantics). -/
def bkEq (a b : BKey) : Bool := a.dist == b.dist && a.ctr == b.ctr

/-- Heap element read with the default key out of range. -/
def bGet (l : List BKey) (i : Nat) : BKey := l.getD i bkeyDefault

/-- Swap two heap slots (BinaryHeap keeps the key-to-index map in sync, which
the positional model renders implicit). -/
def bSwap (l : List BKey) (i j : Nat) : List BKey :=
  (l.set i (bGet l j)).set j (bGet l i)

/-- The child chosen by BinaryHeap.MinHeapify: smallest among node and valid
children. -/
def bSmallest (l : List BKey) (i : Nat) : Nat :=
  let s1 := if 2*i+1 < l.length && bkLess (bGet l (2*i+1)) (bGet l i) then 2*i+1 else i
  if 2*i+2 < l.length && bkLess (bGet l (2*i+2)) (bGet l s1) then 2*i+2 else s1

/-- BinaryHeap.MinHeapify (fuel bounds the descent depth by the list length). -/
def bHeapifyF : Nat → List BKey → Nat → List BKey
  | 0, l, _ => l
  | fuel + 1, l, i =>
    let s := bSmallest l i
    if s ≠ i then bHeapifyF fuel (bSwap l i s) s else l

/-- BinaryHeap.IncreasePriority at a known index: none models the throw when
the new key is greater; otherwise overwrite and sift up while strictly less
than the parent. -/
def bIncreaseAt (l : List BKey) (i : Nat) (k : BKey) : Option (List BKey) :=
  if bkLess (bGet l i) k then none
  else some (bSiftF i (l.set i k) i)
where
  /-- The sift-up loop of BinaryHeap.IncreasePriority. -/
  bSiftF : Nat → List BKey → Nat → List BKey
    | 0, l, _ => l
    | fuel + 1, l, i =>
      if 0 < i && bkLess (bGet l i) (bGet l ((i-1)/2)) then
        bSiftF fuel (bSwap l i ((i-1)/2)) ((i-1)/2)
      else l

/-- BinaryHeap.IncreasePriority by key: locate the old key through the
key-to-index map (positional search under the key equality), then decrease at
that index; none models the map lookup throw and the non-decreasing throw. -/
def bIncrease (l : List BKey) (old k : BKey) : Option (List BKey) :=
  match l.findIdx? (fun e => bkEq e old) with
  | none => none
  | some i => bIncreaseAt l i k

/-- BinaryHeap.Insert: push the default (maximal) key at the back and
immediately decrease it to the requested key. -/
def bInsert (l : List BKey) (k : BKey) : Option (List BKey) :=
  bIncreaseAt (l ++ [bkeyDefault]) l.length k

/-- BinaryHeap.Remove: return the root, move the last key into the root slot,
pop the back and restore the heap; none models the throw on an empty heap. -/
def bRemove (l : List BKey) : Option (BKey × List BKey) :=
  match l with
  | [] => none
  | e :: _ =>
    let popped := (l.set 0 (bGet l (l.length - 1))).dropLast
    some (e, bHeapifyF popped.length popped 0)

/-! ### The contour calculator (contours/contour_calculator.h) -/

/-- State of the contour flood fill: the annotated image under construction
and the labeled points list (in annotation order). -/
structure ContourState where
  ann : AnnMap
  labeled : List Pt

/-- ContourCalculator.BuildContourFromPoint: breadth-first flood fill of one
contour component over 26-connectivity; the queue is FIFO, a popped point is
annotated if it is a contour point without an annotation, and then all its
contour 26-neighbours are enqueued.  Returns the new state, the has-built
flag; fuel bounds the queue length (none on exhaustion, which the supplied
fuel makes unreachable). -/
def buildContourF (img : TernaryImage) :
    Nat → List Pt → ContourState → Nat → Nat → Bool → Option (ContourState × Bool)
  | 0, [], st, _, _, hasBuilt => some (st, hasBuilt)
  | 0, _ :: _, _, _, _, _ => none
  | _ + 1, [], st, _, _, hasBuilt => some (st, hasBuilt)
  | fuel + 1, q :: rest, st, contourLabel, pixelLabel, hasBuilt =>
    if IsContourPoint img q then
      let nbs := neighbours26 q
      match annAdd st.ann (linIdx img q)
          { annDefault with contour := contourLabel, pixel := pixelLabel } with
      | none => buildContourF img fuel rest st contourLabel pixelLabel hasBuilt
      | some ann2 =>
        buildContourF img fuel
          (rest ++ nbs.filter (fun nb => IsContourPoint img nb))
          ⟨ann2, st.labeled ++ [q]⟩ contourLabel (pixelLabel + 1) true
    else
      buildContourF img fuel rest st contourLabel pixelLabel hasBuilt

/-- The outer sweep of ComputeContours over a list of cell indices. -/
def contourSweep (img : TernaryImage) (fuel : Nat) :
    List Nat → ContourState → Nat → Option (ContourState × Nat)
  | [], st, contourLabel => some (st, contourLabel)
  | idx :: cells, st, contourLabel =>
    let p := ptOfIdx img idx
    if IsContourPoint img p then
      match buildContourF img fuel [p] st contourLabel 1 false with
      | none => none
      | some (st2, hasBuilt) =>
        contourSweep img fuel cells st2 (if hasBuilt then contourLabel + 1 else contourLabel)
    else contourSweep img fuel cells st contourLabel

/-- ContourCalculator.ComputeContours: sweep the cube in image-iterator order
(row coordinate fastest, the arma linear order) and flood-fill a fresh contour
label from every yet-unlabeled contour point. -/
def ComputeContours (img : TernaryImage) : Option ContourState :=
  let n := img.nr * img.nc * img.ns
  (contourSweep img (27 * n + 1) (List.range n) ⟨[], []⟩ 1).map Prod.fst

/-! ### The skeletonizer (skeletonizer_by_ift.h) -/

/-- The skeletonizer state: the annotated image, the priority queue and the
monotone key counter. -/
structure IftState where
  ann : AnnMap
  heap : List BKey
  counter : Nat
deriving DecidableEq

/-- SkeletonizerByIFT.InitialiseAnnotationOfSeedPoint: re-initialise the
contour annotation of a seed with zero displacements, zero distance, the key
counter as tag and the point itself as owner. -/
def InitialiseAnnotationOfSeedPoint (img : TernaryImage) (p : Pt) (counter : Nat)
    (ann : AnnMap) : Option AnnMap :=
  match annFind ann (linIdx img p) with
  | none => none
  | some a =>
    annModify ann (linIdx img p)
      { a with status := 1, d0 := 0, d1 := 0, d2 := 0, distance := 0,
               tag := counter, point := p }

/-- The loop of InitialiseAndEnqueueSeedPoints over the labeled contour
points: push each with distance 0 and a fresh counter, and seed its
annotation. -/
def enqueueSeeds (img : TernaryImage) : List Pt → IftState → Option IftState
  | [], s => some s
  | p :: rest, s =>
    let key : BKey := ⟨0, s.counter, p⟩
    match bInsert s.heap key with
    | none => none
    | some heap2 =>
      match InitialiseAnnotationOfSeedPoint img p key.ctr s.ann with
      | none => none
      | some ann2 => enqueueSeeds img rest ⟨ann2, heap2, s.counter + 1⟩

/-- SkeletonizerByIFT.InitialiseAndEnqueueSeedPoints: compute the contours,
then push every contour point with distance 0 and a fresh counter, and seed
its annotation. -/
def InitialiseAndEnqueueSeedPoints (img : TernaryImage) : Option IftState :=
  match ComputeContours img with
  | none => none
  | some cst => enqueueSeeds img cst.labeled ⟨cst.ann, [], 0⟩

/-- SkeletonizerByIFT.PropagateLabelToNeighbour: skip non-object or removed
neighbours; when the concatenated path cost improves on the neighbour
distance, rewrite its displacements and distance, propagate the origin labels
and seed, and insert into or re-prioritise within the queue. -/
def PropagateLabelToNeighbour (img : TernaryImage) (origin : Pt) (oa : Ann)
    (nb : Pt) (s : IftState) : Option IftState :=
  if !IsObjectPoint img nb then some s
  else
    let a := (annFind s.ann (linIdx img nb)).getD annDefault
    if a.status == 2 then some s
    else
      let dist := GetConcatenatedPathCost oa origin nb
      if dist < a.distance then
        let oldKey : BKey := ⟨a.distance, a.tag, nb⟩
        let a2 := UpdatePointPathCost oa origin nb a
        let a3 := { a2 with contour := oa.contour, pixel := oa.pixel, point := oa.point }
        let key : BKey := ⟨dist, s.counter, nb⟩
        let a4 := { a3 with tag := key.ctr }
        if a.status ≠ 1 then
          match bInsert s.heap key with
          | none => none
          | some heap2 =>
            match annAdd s.ann (linIdx img nb) { a4 with status := 1 } with
            | none => none
            | some ann2 => some ⟨ann2, heap2, s.counter + 1⟩
        else
          match bIncrease s.heap oldKey key with
          | none => none
          | some heap2 =>
            match annModify s.ann (linIdx img nb) a4 with
            | none => none
            | some ann2 => some ⟨ann2, heap2, s.counter + 1⟩
      else some s

/-- The loop of PropagateLabelToNeighboursIfApplicable over the 26-neighbour
list of the popped point. -/
def propagateAll (img : TernaryImage) (origin : Pt) (oa : Ann) :
    List Pt → IftState → Option IftState
  | [], s => some s
  | nb :: rest, s =>
    match PropagateLabelToNeighbour img origin oa nb s with
    | none => none
    | some s2 => propagateAll img origin oa rest s2

/-- One iteration of SkeletonizerByIFT.ExecuteIftIterations: pop the minimal
key, mark its annotation removed, and propagate to its 26 neighbours. -/
def stepIft (img : TernaryImage) (s : IftState) : Option IftState :=
  match bRemove s.heap with
  | none => some s
  | some (key, heap2) =>
    let p := key.pt
    match annFind s.ann (linIdx img p) with
    | none => none
    | some a =>
      let a2 := { a with status := 2 }
      match annModify s.ann (linIdx img p) a2 with
      | none => none
      | some ann2 => propagateAll img p a2 (neighbours26 p) ⟨ann2, heap2, s.counter⟩

/-- The main IFT loop with explicit fuel: run while the queue has elements;
when the fuel is exhausted the current state is returned, so states reached
with any fuel are exactly the states after that many iterations. -/
def runIft (img : TernaryImage) : Nat → IftState → Option IftState
  | 0, s => some s
  | fuel + 1, s =>
    if s.heap.isEmpty then some s
    else
      match stepIft img s with
      | none => none
      | some s2 => runIft img fuel s2

/-- SkeletonizerByIFT.ComputeSkeleton: seed the queue from the contours and
run the IFT to completion (the fuel bounds the number of pops, which never
exceeds the number of inserted keys, itself at most the cube size). -/
def ComputeSkeleton (img : TernaryImage) : Option IftState :=
  match InitialiseAndEnqueueSeedPoints img with
  | none => none
  | some s => runIft img (img.nr * img.nc * img.ns + 1) s

/-! ### Invariants of the skeletonizer run -/

/-- Decoding the linear index of an in-cube point recovers the point. -/
theorem ptOfIdx_linIdx {img : TernaryImage} {p : Pt} (h : inCube img p = true) :
    ptOfIdx img (linIdx img p) = p := by
  obtain ⟨x, y, z⟩ := p
  simp only [inCube, Bool.and_eq_true, decide_eq_true_eq] at h
  obtain ⟨⟨⟨⟨⟨hx0, hx1⟩, hy0⟩, hy1⟩, hz0⟩, hz1⟩ := h
  obtain ⟨a, rfl⟩ := Int.eq_ofNat_of_zero_le hx0
  obtain ⟨b, rfl⟩ := Int.eq_ofNat_of_zero_le hy0
  obtain ⟨c, rfl⟩ := Int.eq_ofNat_of_zero_le hz0
  have ha : a < img.nr := by exact_mod_cast hx1
  have hb : b < img.nc := by exact_mod_cast hy1
  have hnr : 0 < img.nr := Nat.lt_of_le_of_lt (Nat.zero_le a) ha
  have hnc : 0 < img.nc := Nat.lt_of_le_of_lt (Nat.zero_le b) hb
  have hidx : linIdx img ((a : Int), (b : Int), (c : Int)) =
      a + img.nr * (b + img.nc * c) := by
    simp only [linIdx]
    rw [show ((a : Int) + (img.nr : Int) * ((b : Int) + (img.nc : Int) * (c : Int)))
        = ((a + img.nr * (b + img.nc * c) : Nat) : Int) by push_cast; ring]
    exact Int.toNat_natCast _
  rw [hidx]
  have h1 : (a + img.nr * (b + img.nc * c)) % img.nr = a := by
    rw [Nat.add_mul_mod_self_left, Nat.mod_eq_of_lt ha]
  have h2 : (a + img.nr * (b + img.nc * c)) / img.nr = b + img.nc * c := by
    rw [Nat.add_mul_div_left _ _ hnr, Nat.div_eq_of_lt ha, Nat.zero_add]
  have h3 : (b + img.nc * c) % img.nc = b := by
    rw [Nat.add_mul_mod_self_left, Nat.mod_eq_of_lt hb]
  have h4 : (a + img.nr * (b + img.nc * c)) / (img.nr * img.nc) = c := by
    have hrw : a + img.nr * (b + img.nc * c) = (a + img.nr * b) + (img.nr * img.nc) * c := by
      ring
    have hlt : a + img.nr * b < img.nr * img.nc := by
      calc a + img.nr * b < img.nr + img.nr * b := by omega
        _ = img.nr * (b + 1) := by ring
        _ ≤ img.nr * img.nc := Nat.mul_le_mul_left _ hb
    rw [hrw, Nat.add_mul_div_left _ _ (Nat.mul_pos hnr hnc), Nat.div_eq_of_lt hlt,
        Nat.zero_add]
  simp only [ptOfIdx, h1, h2, h3, h4]

/-- A contour point is inside the cube. -/
theorem inCube_of_contour {img : TernaryImage} {p : Pt}
    (h : IsContourPoint img p = true) : inCube img p = true := by
  simp only [IsContourPoint, Bool.and_eq_true] at h
  exact h.1

/-- An object (pore) point is inside the cube. -/
theorem inCube_of_object {img : TernaryImage} {p : Pt}
    (h : IsObjectPoint img p = true) : inCube img p = true := by
  simp only [IsObjectPoint, Bool.and_eq_true] at h
  exact h.1

/-- The distance-displacement invariant of one annotation (C7): the stored
distance is the sum of the squares of the per-axis displacements stored
beside it. -/
def AnnSq (a : Ann) : Prop := (a.distance : Int) = a.d0 ^ 2 + a.d1 ^ 2 + a.d2 ^ 2

/-- The seed lower-bound invariant of the annotation stored at a linear
index: the recorded owner point is a contour point and each displacement
bounds the absolute per-axis offset from the annotated voxel to it. -/
def AnnSeed (img : TernaryImage) (idx : Nat) (a : Ann) : Prop :=
  IsContourPoint img a.point = true ∧
  |(ptOfIdx img idx).1 - a.point.1| ≤ a.d0 ∧
  |(ptOfIdx img idx).2.1 - a.point.2.1| ≤ a.d1 ∧
  |(ptOfIdx img idx).2.2 - a.point.2.2| ≤ a.d2

/-- Both annotation invariants at once. -/
def AnnGood (img : TernaryImage) (idx : Nat) (a : Ann) : Prop :=
  AnnSq a ∧ AnnSeed img idx a

/-- A queue key decodes to its own point (true of every inserted key: seed
and neighbour points are in the cube, and of the default key, whose zero
point decodes to itself for every cube). -/
def BKeyGood (img : TernaryImage) (k : BKey) : Prop :=
  ptOfIdx img (linIdx img k.pt) = k.pt

/-- The run invariant: every annotation is good for its key, and every queue
key decodes to its own point. -/
def IftGood (img : TernaryImage) (s : IftState) : Prop :=
  (∀ pa ∈ s.ann, AnnGood img pa.1 pa.2) ∧ ∀ k ∈ s.heap, BKeyGood img k

theorem bkeyDefault_good (img : TernaryImage) : BKeyGood img bkeyDefault := by
  simp [BKeyGood, bkeyDefault, linIdx, ptOfIdx]

theorem bkeyGood_of_inCube {img : TernaryImage} {p : Pt} (h : inCube img p = true)
    {d c : Nat} : BKeyGood img ⟨d, c, p⟩ := ptOfIdx_linIdx h

theorem bGet_mem_or_default (l : List BKey) (i : Nat) :
    bGet l i ∈ l ∨ bGet l i = bkeyDefault := by
  by_cases h : i < l.length
  · rw [bGet, List.getD_eq_getElem l _ h]
    exact Or.inl (List.getElem_mem h)
  · rw [bGet, List.getD_eq_default l _ (Nat.le_of_not_lt h)]
    exact Or.inr rfl

theorem mem_bSwap {l : List BKey} {i j : Nat} {e : BKey} (h : e ∈ bSwap l i j) :
    e ∈ l ∨ e = bkeyDefault := by
  rcases List.mem_or_eq_of_mem_set h with h2 | h2
  · rcases List.mem_or_eq_of_mem_set h2 with h3 | h3
    · exact Or.inl h3
    · rw [h3]; exact bGet_mem_or_default l j
  · rw [h2]; exact bGet_mem_or_default l i

theorem mem_bHeapifyF (fuel : Nat) : ∀ (l : List BKey) (i : Nat) (e : BKey),
    e ∈ bHeapifyF fuel l i → e ∈ l ∨ e = bkeyDefault := by
  induction fuel with
  | zero => intro l i e h; exact Or.inl h
  | succ n ih =>
    intro l i e h
    simp only [bHeapifyF] at h
    by_cases hs : bSmallest l i ≠ i
    · rw [if_pos hs] at h
      rcases ih _ _ _ h with h2 | h2
      · exact mem_bSwap h2
      · exact Or.inr h2
    · rw [if_neg hs] at h
      exact Or.inl h

theorem mem_bSiftF (fuel : Nat) : ∀ (l : List BKey) (i : Nat) (e : BKey),
    e ∈ bIncreaseAt.bSiftF fuel l i → e ∈ l ∨ e = bkeyDefault := by
  induction fuel with
  | zero => intro l i e h; exact Or.inl h
  | succ n ih =>
    intro l i e h
    simp only [bIncreaseAt.bSiftF] at h
    by_cases hs : (0 < i && bkLess (bGet l i) (bGet l ((i-1)/2))) = true
    · rw [if_pos hs] at h
      rcases ih _ _ _ h with h2 | h2
      · exact mem_bSwap h2
      · exact Or.inr h2
    · rw [if_neg hs] at h
      exact Or.inl h

theorem mem_bIncreaseAt {l : List BKey} {i : Nat} {k : BKey} {l2 : List BKey} {e : BKey}
    (h : bIncreaseAt l i k = some l2) (he : e ∈ l2) :
    e ∈ l ∨ e = k ∨ e = bkeyDefault := by
  simp only [bIncreaseAt] at h
  by_cases hc : bkLess (bGet l i) k = true
  · rw [if_pos hc] at h
    exact absurd h (by simp)
  · rw [if_neg hc] at h
    obtain rfl : bIncreaseAt.bSiftF i (l.set i k) i = l2 := by injection h
    rcases mem_bSiftF _ _ _ _ he with h2 | h2
    · rcases List.mem_or_eq_of_mem_set h2 with h3 | h3
      · exact Or.inl h3
      · exact Or.inr (Or.inl h3)
    · exact Or.inr (Or.inr h2)

theorem mem_bInsert {l : List BKey} {k : BKey} {l2 : List BKey} {e : BKey}
    (h : bInsert l k = some l2) (he : e ∈ l2) : e ∈ l ∨ e = k ∨ e = bkeyDefault := by
  rcases mem_bIncreaseAt h he with h2 | h2 | h2
  · rcases List.mem_append.mp h2 with h3 | h3
    · exact Or.inl h3
    · simp only [List.mem_singleton] at h3
      exact Or.inr (Or.inr h3)
  · exact Or.inr (Or.inl h2)
  · exact Or.inr (Or.inr h2)

theorem mem_bIncrease {l : List BKey} {old k : BKey} {l2 : List BKey} {e : BKey}
    (h : bIncrease l old k = some l2) (he : e ∈ l2) : e ∈ l ∨ e = k ∨ e = bkeyDefault := by
  simp only [bIncrease] at h
  cases hf : l.findIdx? (fun x => bkEq x old) with
  | none => rw [hf] at h; exact absurd h (by simp)
  | some i => rw [hf] at h; exact mem_bIncreaseAt h he

theorem bRemove_head {l : List BKey} {k : BKey} {rest : List BKey}
    (h : bRemove l = some (k, rest)) : k ∈ l := by
  cases l with
  | nil => simp [bRemove] at h
  | cons a t =>
    simp only [bRemove, Option.some.injEq, Prod.mk.injEq] at h
    rw [← h.1]
    exact List.mem_cons_self a t

theorem mem_bRemove {l : List BKey} {k : BKey} {rest : List BKey} {e : BKey}
    (h : bRemove l = some (k, rest)) (he : e ∈ rest) : e ∈ l ∨ e = bkeyDefault := by
  cases l with
  | nil => simp [bRemove] at h
  | cons a t =>
    simp only [bRemove, Option.some.injEq, Prod.mk.injEq] at h
    rw [← h.2] at he
    rcases mem_bHeapifyF _ _ _ _ he with h3 | h3
    · have h4 := List.dropLast_subset _ h3
      rcases List.mem_or_eq_of_mem_set h4 with h5 | h5
      · exact Or.inl h5
      · rw [h5]; exact bGet_mem_or_default (a :: t) ((a :: t).length - 1)
    · exact Or.inr h3

theorem annFind_mem : ∀ {m : AnnMap} {idx : Nat} {a : Ann},
    annFind m idx = some a → (idx, a) ∈ m := by
  intro m
  induction m with
  | nil => intro idx a h; simp [annFind] at h
  | cons pa rest ih =>
    intro idx a h
    obtain ⟨k, b⟩ := pa
    simp only [annFind] at h
    by_cases hk : (k == idx) = true
    · rw [if_pos hk] at h
      obtain rfl : b = a := by injection h
      obtain rfl : k = idx := by simpa using hk
      exact List.mem_cons_self _ _
    · rw [if_neg hk] at h
      exact List.mem_cons_of_mem _ (ih h)

theorem annFind_eq_none : ∀ {m : AnnMap} {idx : Nat},
    annFind m idx = none → ∀ pa ∈ m, pa.1 ≠ idx := by
  intro m
  induction m with
  | nil => intro idx _ pa hpa; simp at hpa
  | cons qa rest ih =>
    intro idx h pa hpa
    obtain ⟨k, b⟩ := qa
    simp only [annFind] at h
    by_cases hk : (k == idx) = true
    · rw [if_pos hk] at h; exact absurd h (by simp)
    · rw [if_neg hk] at h
      rcases List.mem_cons.mp hpa with rfl | h2
      · exact fun he => hk (by simp at he ⊢; exact he)
      · exact ih h pa h2

/-- The keys of the annotated image are distinct (the unordered map of the
source cannot hold a key twice; the association list model records this). -/
def KeysNodup (m : AnnMap) : Prop := (m.map Prod.fst).Nodup

theorem mem_annAdd {m : AnnMap} {idx : Nat} {a : Ann} {m2 : AnnMap} {pa : Nat × Ann}
    (h : annAdd m idx a = some m2) (hpa : pa ∈ m2) : pa = (idx, a) ∨ pa ∈ m := by
  simp only [annAdd] at h
  cases hf : annFind m idx with
  | some _ => rw [hf] at h; exact absurd h (by simp)
  | none =>
    rw [hf] at h
    obtain rfl : (idx, a) :: m = m2 := by injection h
    exact List.mem_cons.mp hpa

theorem keysNodup_annAdd {m : AnnMap} {idx : Nat} {a : Ann} {m2 : AnnMap}
    (h : annAdd m idx a = some m2) (hn : KeysNodup m) : KeysNodup m2 := by
  simp only [annAdd] at h
  cases hf : annFind m idx with
  | some _ => rw [hf] at h; exact absurd h (by simp)
  | none =>
    rw [hf] at h
    obtain rfl : (idx, a) :: m = m2 := by injection h
    simp only [KeysNodup, List.map_cons]
    refine List.nodup_cons.mpr ⟨?_, hn⟩
    intro hmem
    obtain ⟨pa, hpa, hfst⟩ := List.mem_map.mp hmem
    exact annFind_eq_none hf pa hpa hfst

theorem keys_annModify : ∀ {m : AnnMap} {idx : Nat} {a2 : Ann} {m2 : AnnMap},
    annModify m idx a2 = some m2 → m2.map Prod.fst = m.map Prod.fst := by
  intro m
  induction m with
  | nil => intro idx a2 m2 h; simp [annModify] at h
  | cons pa rest ih =>
    intro idx a2 m2 h
    obtain ⟨k, b⟩ := pa
    simp only [annModify] at h
    by_cases hk : (k == idx) = true
    · rw [if_pos hk] at h
      obtain rfl : (k, a2) :: rest = m2 := by injection h
      simp
    · rw [if_neg hk] at h
      cases hm : annModify rest idx a2 with
      | none => rw [hm] at h; exact absurd h (by simp)
      | some r =>
        rw [hm] at h
        obtain rfl : (k, b) :: r = m2 := by injection h
        simp [ih hm]

theorem mem_annModify : ∀ {m : AnnMap} {idx : Nat} {a2 : Ann} {m2 : AnnMap} {pa : Nat × Ann},
    annModify m idx a2 = some m2 → pa ∈ m2 → pa = (idx, a2) ∨ pa ∈ m := by
  intro m
  induction m with
  | nil => intro idx a2 m2 pa h; simp [annModify] at h
  | cons qa rest ih =>
    intro idx a2 m2 pa h hpa
    obtain ⟨k, b⟩ := qa
    simp only [annModify] at h
    by_cases hk : (k == idx) = true
    · rw [if_pos hk] at h
      obtain rfl : (k, a2) :: rest = m2 := by injection h
      obtain rfl : k = idx := by simpa using hk
      rcases List.mem_cons.mp hpa with rfl | h2
      · exact Or.inl rfl
      · exact Or.inr (List.mem_cons_of_mem _ h2)
    · rw [if_neg hk] at h
      cases hm : annModify rest idx a2 with
      | none => rw [hm] at h; exact absurd h (by simp)
      | some r =>
        rw [hm] at h
        obtain rfl : (k, b) :: r = m2 := by injection h
        rcases List.mem_cons.mp hpa with rfl | h2
        · exact Or.inr (List.mem_cons_self _ _)
        · rcases ih hm h2 with h3 | h3
          · exact Or.inl h3
          · exact Or.inr (List.mem_cons_of_mem _ h3)

theorem mem_annModify_of_nodup : ∀ {m : AnnMap} {idx : Nat} {a2 : Ann} {m2 : AnnMap}
    {pa : Nat × Ann}, annModify m idx a2 = some m2 → KeysNodup m → pa ∈ m2 →
    pa = (idx, a2) ∨ (pa ∈ m ∧ pa.1 ≠ idx) := by
  intro m
  induction m with
  | nil => intro idx a2 m2 pa h; simp [annModify] at h
  | cons qa rest ih =>
    intro idx a2 m2 pa h hn hpa
    obtain ⟨k, b⟩ := qa
    simp only [KeysNodup, List.map_cons, List.nodup_cons] at hn
    simp only [annModify] at h
    by_cases hk : (k == idx) = true
    · rw [if_pos hk] at h
      obtain rfl : (k, a2) :: rest = m2 := by injection h
      obtain rfl : k = idx := by simpa using hk
      rcases List.mem_cons.mp hpa with rfl | h2
      · exact Or.inl rfl
      · refine Or.inr ⟨List.mem_cons_of_mem _ h2, ?_⟩
        intro he
        exact hn.1 (he ▸ List.mem_map.mpr ⟨pa, h2, rfl⟩)
    · rw [if_neg hk] at h
      cases hm : annModify rest idx a2 with
      | none => rw [hm] at h; exact absurd h (by simp)
      | some r =>
        rw [hm] at h
        obtain rfl : (k, b) :: r = m2 := by injection h
        rcases List.mem_cons.mp hpa with rfl | h2
        · refine Or.inr ⟨List.mem_cons_self _ _, ?_⟩
          show k ≠ idx
          intro he
          exact hk (by simp [he])
        · rcases ih hm hn.2 h2 with h3 | h3
          · exact Or.inl h3
          · exact Or.inr ⟨List.mem_cons_of_mem _ h3.1, h3.2⟩

/-- An annotation whose distance field is the squared sum of its own
displacements satisfies AnnSq (the toNat is the identity on the sum of
squares). -/
theorem annSq_of_fields {b : Ann}
    (hdist : b.distance = ((b.d0 ^ 2 + b.d1 ^ 2 + b.d2 ^ 2 : Int)).toNat) : AnnSq b := by
  show (b.distance : Int) = _
  rw [hdist, Int.toNat_of_nonneg (by positivity)]

/-- The annotation written by a relaxation is good for the neighbour's index:
its distance is the squared sum of its displacements, and each displacement
bounds the per-axis offset to the inherited seed by the triangle inequality. -/
theorem annGood_propagated {img : TernaryImage} {origin nb : Pt} {oa b : Ann}
    (hSeed : AnnSeed img (linIdx img origin) oa)
    (horig : ptOfIdx img (linIdx img origin) = origin)
    (hnb : inCube img nb = true)
    (h0 : b.d0 = oa.d0 + ((nb.1 - origin.1).natAbs : Int))
    (h1 : b.d1 = oa.d1 + ((nb.2.1 - origin.2.1).natAbs : Int))
    (h2 : b.d2 = oa.d2 + ((nb.2.2 - origin.2.2).natAbs : Int))
    (hdist : b.distance = ((b.d0 ^ 2 + b.d1 ^ 2 + b.d2 ^ 2 : Int)).toNat)
    (hpt : b.point = oa.point) :
    AnnGood img (linIdx img nb) b := by
  obtain ⟨hc, hb0, hb1, hb2⟩ := hSeed
  rw [horig] at hb0 hb1 hb2
  refine ⟨annSq_of_fields hdist, ?_, ?_, ?_, ?_⟩
  · rw [hpt]; exact hc
  · rw [ptOfIdx_linIdx hnb, hpt, h0]
    calc |nb.1 - oa.point.1| ≤ |nb.1 - origin.1| + |origin.1 - oa.point.1| :=
          abs_sub_le _ _ _
      _ ≤ ((nb.1 - origin.1).natAbs : Int) + oa.d0 :=
          add_le_add (le_of_eq (Int.abs_eq_natAbs _)) hb0
      _ = oa.d0 + ((nb.1 - origin.1).natAbs : Int) := by ring
  · rw [ptOfIdx_linIdx hnb, hpt, h1]
    calc |nb.2.1 - oa.point.2.1| ≤ |nb.2.1 - origin.2.1| + |origin.2.1 - oa.point.2.1| :=
          abs_sub_le _ _ _
      _ ≤ ((nb.2.1 - origin.2.1).natAbs : Int) + oa.d1 :=
          add_le_add (le_of_eq (Int.abs_eq_natAbs _)) hb1
      _ = oa.d1 + ((nb.2.1 - origin.2.1).natAbs : Int) := by ring
  · rw [ptOfIdx_linIdx hnb, hpt, h2]
    calc |nb.2.2 - oa.point.2.2| ≤ |nb.2.2 - origin.2.2| + |origin.2.2 - oa.point.2.2| :=
          abs_sub_le _ _ _
      _ ≤ ((nb.2.2 - origin.2.2).natAbs : Int) + oa.d2 :=
          add_le_add (le_of_eq (Int.abs_eq_natAbs _)) hb2
      _ = oa.d2 + ((nb.2.2 - origin.2.2).natAbs : Int) := by ring

/-- One relaxation preserves the run invariant, given that the origin
annotation satisfies the seed bound at the origin's index and the origin
point decodes from its own linear index. -/
theorem propagate_good {img : TernaryImage} {origin : Pt} {oa : Ann} {nb : Pt}
    {s s2 : IftState}
    (h : PropagateLabelToNeighbour img origin oa nb s = some s2)
    (hSeed : AnnSeed img (linIdx img origin) oa)
    (horig : ptOfIdx img (linIdx img origin) = origin)
    (hs : IftGood img s) : IftGood img s2 := by
  simp only [PropagateLabelToNeighbour] at h
  cases hobj : IsObjectPoint img nb with
  | false =>
    rw [if_pos (by simp [hobj])] at h
    obtain rfl : s = s2 := by injection h
    exact hs
  | true =>
    rw [if_neg (by simp [hobj])] at h
    have hnb : inCube img nb = true := inCube_of_object hobj
    by_cases hst2 : (((annFind s.ann (linIdx img nb)).getD annDefault).status == 2) = true
    · rw [if_pos hst2] at h
      obtain rfl : s = s2 := by injection h
      exact hs
    · rw [if_neg hst2] at h
      by_cases himp : GetConcatenatedPathCost oa origin nb <
          ((annFind s.ann (linIdx img nb)).getD annDefault).distance
      · rw [if_pos himp] at h
        by_cases hst1 : ((annFind s.ann (linIdx img nb)).getD annDefault).status ≠ 1
        · rw [if_pos hst1] at h
          split at h
          · exact absurd h (by simp)
          · rename_i heap2 hins
            split at h
            · exact absurd h (by simp)
            · rename_i ann2 hadd
              obtain rfl : (⟨ann2, heap2, s.counter + 1⟩ : IftState) = s2 := by injection h
              constructor
              · intro pa hpa
                rcases mem_annAdd hadd hpa with rfl | hmem
                · exact annGood_propagated hSeed horig hnb rfl rfl rfl rfl rfl
                · exact hs.1 pa hmem
              · intro k hk
                rcases mem_bInsert hins hk with hk2 | rfl | rfl
                · exact hs.2 k hk2
                · exact bkeyGood_of_inCube hnb
                · exact bkeyDefault_good img
        · rw [if_neg hst1] at h
          split at h
          · exact absurd h (by simp)
          · rename_i heap2 hinc
            split at h
            · exact absurd h (by simp)
            · rename_i ann2 hmod
              obtain rfl : (⟨ann2, heap2, s.counter + 1⟩ : IftState) = s2 := by injection h
              constructor
              · intro pa hpa
                rcases mem_annModify hmod hpa with rfl | hmem
                · exact annGood_propagated hSeed horig hnb rfl rfl rfl rfl rfl
                · exact hs.1 pa hmem
              · intro k hk
                rcases mem_bIncrease hinc hk with hk2 | rfl | rfl
                · exact hs.2 k hk2
                · exact bkeyGood_of_inCube hnb
                · exact bkeyDefault_good img
      · rw [if_neg himp] at h
        obtain rfl : s = s2 := by injection h
        exact hs

/-- One relaxation preserves the distance-displacement equation alone, with
no hypothesis on the origin annotation: the written distance is by
construction the squared sum of the written displacements. -/
theorem propagate_sq {img : TernaryImage} {origin : Pt} {oa : Ann} {nb : Pt}
    {s s2 : IftState}
    (h : PropagateLabelToNeighbour img origin oa nb s = some s2)
    (hs : ∀ pa ∈ s.ann, AnnSq pa.2) : ∀ pa ∈ s2.ann, AnnSq pa.2 := by
  simp only [PropagateLabelToNeighbour] at h
  cases hobj : IsObjectPoint img nb with
  | false =>
    rw [if_pos (by simp [hobj])] at h
    obtain rfl : s = s2 := by injection h
    exact hs
  | true =>
    rw [if_neg (by simp [hobj])] at h
    by_cases hst2 : (((annFind s.ann (linIdx img nb)).getD annDefault).status == 2) = true
    · rw [if_pos hst2] at h
      obtain rfl : s = s2 := by injection h
      exact hs
    · rw [if_neg hst2] at h
      by_cases himp : GetConcatenatedPathCost oa origin nb <
          ((annFind s.ann (linIdx img nb)).getD annDefault).distance
      · rw [if_pos himp] at h
        by_cases hst1 : ((annFind s.ann (linIdx img nb)).getD annDefault).status ≠ 1
        · rw [if_pos hst1] at h
          split at h
          · exact absurd h (by simp)
          · rename_i heap2 hins
            split at h
            · exact absurd h (by simp)
            · rename_i ann2 hadd
              obtain rfl : (⟨ann2, heap2, s.counter + 1⟩ : IftState) = s2 := by injection h
              intro pa hpa
              rcases mem_annAdd hadd hpa with rfl | hmem
              · exact annSq_of_fields rfl
              · exact hs pa hmem
        · rw [if_neg hst1] at h
          split at h
          · exact absurd h (by simp)
          · rename_i heap2 hinc
            split at h
            · exact absurd h (by simp)
            · rename_i ann2 hmod
              obtain rfl : (⟨ann2, heap2, s.counter + 1⟩ : IftState) = s2 := by injection h
              intro pa hpa
              rcases mem_annModify hmod hpa with rfl | hmem
              · exact annSq_of_fields rfl
              · exact hs pa hmem
      · rw [if_neg himp] at h
        obtain rfl : s = s2 := by injection h
        exact hs

/-- The full neighbour sweep of one iteration preserves the run invariant. -/
theorem propagateAll_good {img : TernaryImage} {origin : Pt} {oa : Ann}
    (hSeed : AnnSeed img (linIdx img origin) oa)
    (horig : ptOfIdx img (linIdx img origin) = origin) :
    ∀ (nbs : List Pt) (s s2 : IftState),
    propagateAll img origin oa nbs s = some s2 → IftGood img s → IftGood img s2 := by
  intro nbs
  induction nbs with
  | nil =>
    intro s s2 h hs
    obtain rfl : s = s2 := by injection h
    exact hs
  | cons nb rest ih =>
    intro s s2 h hs
    simp only [propagateAll] at h
    cases hp : PropagateLabelToNeighbour img origin oa nb s with
    | none => rw [hp] at h; exact absurd h (by simp)
    | some s1 =>
      rw [hp] at h
      exact ih s1 s2 h (propagate_good hp hSeed horig hs)

/-- One pop-and-propagate iteration preserves the run invariant. -/
theorem stepIft_good {img : TernaryImage} {s s2 : IftState}
    (h : stepIft img s = some s2) (hs : IftGood img s) : IftGood img s2 := by
  simp only [stepIft] at h
  cases hr : bRemove s.heap with
  | none =>
    rw [hr] at h
    obtain rfl : s = s2 := by injection h
    exact hs
  | some pr =>
    obtain ⟨key, heap2⟩ := pr
    simp only [hr] at h
    cases hf : annFind s.ann (linIdx img key.pt) with
    | none => simp only [hf] at h; exact Option.noConfusion h
    | some a =>
      simp only [hf] at h
      cases hm : annModify s.ann (linIdx img key.pt) { a with status := 2 } with
      | none => simp only [hm] at h; exact Option.noConfusion h
      | some ann2 =>
        simp only [hm] at h
        have hkey : ptOfIdx img (linIdx img key.pt) = key.pt :=
          hs.2 key (bRemove_head hr)
        have hga : AnnGood img (linIdx img key.pt) a := hs.1 _ (annFind_mem hf)
        have hmid : IftGood img ⟨ann2, heap2, s.counter⟩ := by
          constructor
          · intro pa hpa
            rcases mem_annModify hm hpa with rfl | hmem
            · exact ⟨hga.1, hga.2⟩
            · exact hs.1 pa hmem
          · intro k hk
            rcases mem_bRemove hr hk with hk2 | rfl
            · exact hs.2 k hk2
            · exact bkeyDefault_good img
        exact propagateAll_good hga.2 hkey (neighbours26 key.pt) _ _ h hmid

/-- Any number of iterations of the main loop preserves the run invariant. -/
theorem runIft_good {img : TernaryImage} : ∀ (fuel : Nat) (s s2 : IftState),
    runIft img fuel s = some s2 → IftGood img s → IftGood img s2 := by
  intro fuel
  induction fuel with
  | zero =>
    intro s s2 h hs
    obtain rfl : s = s2 := by injection h
    exact hs
  | succ n ih =>
    intro s s2 h hs
    simp only [runIft] at h
    by_cases he : s.heap.isEmpty = true
    · rw [if_pos he] at h
      obtain rfl : s = s2 := by injection h
      exact hs
    · rw [if_neg he] at h
      cases hstep : stepIft img s with
      | none => rw [hstep] at h; exact absurd h (by simp)
      | some s1 =>
        rw [hstep] at h
        exact ih s1 s2 h (stepIft_good hstep hs)

/-- Invariant of the contour flood fill: annotation keys are distinct, every
annotation sits at the index of some labeled point, and every labeled point
is a contour point. -/
def ContourGood (img : TernaryImage) (st : ContourState) : Prop :=
  KeysNodup st.ann ∧
  (∀ pa ∈ st.ann, ∃ q, q ∈ st.labeled ∧ pa.1 = linIdx img q) ∧
  ∀ q ∈ st.labeled, IsContourPoint img q = true

theorem buildContourF_good {img : TernaryImage} : ∀ (fuel : Nat) (queue : List Pt)
    (st : ContourState) (cl pl : Nat) (hb : Bool) (st2 : ContourState) (hb2 : Bool),
    buildContourF img fuel queue st cl pl hb = some (st2, hb2) →
    ContourGood img st → ContourGood img st2 := by
  intro fuel
  induction fuel with
  | zero =>
    intro queue st cl pl hb st2 hb2 h hg
    cases queue with
    | nil =>
      simp only [buildContourF, Option.some.injEq, Prod.mk.injEq] at h
      obtain ⟨rfl, rfl⟩ := h
      exact hg
    | cons q rest =>
      simp only [buildContourF] at h
      exact Option.noConfusion h
  | succ n ih =>
    intro queue st cl pl hb st2 hb2 h hg
    cases queue with
    | nil =>
      simp only [buildContourF, Option.some.injEq, Prod.mk.injEq] at h
      obtain ⟨rfl, rfl⟩ := h
      exact hg
    | cons q rest =>
      simp only [buildContourF] at h
      by_cases hq : IsContourPoint img q = true
      · rw [if_pos hq] at h
        cases hadd : annAdd st.ann (linIdx img q)
            { annDefault with contour := cl, pixel := pl } with
        | none =>
          simp only [hadd] at h
          exact ih _ _ _ _ _ _ _ h hg
        | some ann2 =>
          simp only [hadd] at h
          refine ih _ _ _ _ _ _ _ h ⟨keysNodup_annAdd hadd hg.1, ?_, ?_⟩
          · intro pa hpa
            rcases mem_annAdd hadd hpa with rfl | hmem
            · exact ⟨q, by simp, rfl⟩
            · obtain ⟨q2, hq2, hk2⟩ := hg.2.1 pa hmem
              exact ⟨q2, by simp [hq2], hk2⟩
          · intro q2 hq2
            rcases List.mem_append.mp hq2 with h1 | h1
            · exact hg.2.2 q2 h1
            · simp only [List.mem_singleton] at h1
              rw [h1]
              exact hq
      · rw [if_neg hq] at h
        exact ih _ _ _ _ _ _ _ h hg

theorem contourSweep_good {img : TernaryImage} {fuel : Nat} : ∀ (cells : List Nat)
    (st : ContourState) (cl : Nat) (st2 : ContourState) (cl2 : Nat),
    contourSweep img fuel cells st cl = some (st2, cl2) →
    ContourGood img st → ContourGood img st2 := by
  intro cells
  induction cells with
  | nil =>
    intro st cl st2 cl2 h hg
    simp only [contourSweep, Option.some.injEq, Prod.mk.injEq] at h
    obtain ⟨rfl, rfl⟩ := h
    exact hg
  | cons idx cellsrest ih =>
    intro st cl st2 cl2 h hg
    simp only [contourSweep] at h
    by_cases hp : IsContourPoint img (ptOfIdx img idx) = true
    · rw [if_pos hp] at h
      cases hb : buildContourF img fuel [ptOfIdx img idx] st cl 1 false with
      | none => simp only [hb] at h; exact Option.noConfusion h
      | some pr =>
        obtain ⟨stx, hbx⟩ := pr
        simp only [hb] at h
        exact ih _ _ _ _ h (buildContourF_good _ _ _ _ _ _ _ _ hb hg)
    · rw [if_neg hp] at h
      exact ih _ _ _ _ h hg

theorem computeContours_good {img : TernaryImage} {cst : ContourState}
    (h : ComputeContours img = some cst) : ContourGood img cst := by
  simp only [ComputeContours] at h
  cases hs : contourSweep img (27 * (img.nr * img.nc * img.ns) + 1)
      (List.range (img.nr * img.nc * img.ns)) ⟨[], []⟩ 1 with
  | none => simp only [hs] at h; exact Option.noConfusion h
  | some pr =>
    obtain ⟨st2, cl2⟩ := pr
    simp only [hs, Option.map_some', Option.some.injEq] at h
    rw [← h]
    refine contourSweep_good _ _ _ _ _ hs ⟨?_, ?_, ?_⟩
    · simp [KeysNodup]
    · intro pa hpa
      exact absurd hpa (List.not_mem_nil pa)
    · intro q hq
      exact absurd hq (List.not_mem_nil q)

/-- The seed loop turns a contour-built map into a good run state: every
annotation whose key belongs to a pending labeled point is rewritten to the
zero seed annotation, and every other annotation is already good. -/
theorem enqueueSeeds_good {img : TernaryImage} : ∀ (L : List Pt) (s s2 : IftState),
    enqueueSeeds img L s = some s2 →
    KeysNodup s.ann →
    (∀ q ∈ L, IsContourPoint img q = true) →
    (∀ pa ∈ s.ann, AnnGood img pa.1 pa.2 ∨ ∃ q, q ∈ L ∧ pa.1 = linIdx img q) →
    (∀ k ∈ s.heap, BKeyGood img k) →
    IftGood img s2 := by
  intro L
  induction L with
  | nil =>
    intro s s2 h hn hL hann hheap
    obtain rfl : s = s2 := by injection h
    refine ⟨?_, hheap⟩
    intro pa hpa
    rcases hann pa hpa with hg | ⟨q, hq, -⟩
    · exact hg
    · exact absurd hq (List.not_mem_nil q)
  | cons p rest ih =>
    intro s s2 h hn hL hann hheap
    simp only [enqueueSeeds] at h
    have hp : IsContourPoint img p = true := hL p (List.mem_cons_self p rest)
    have hpc : inCube img p = true := inCube_of_contour hp
    cases hins : bInsert s.heap ⟨0, s.counter, p⟩ with
    | none => simp only [hins] at h; exact Option.noConfusion h
    | some heap2 =>
      simp only [hins] at h
      cases hinit : InitialiseAnnotationOfSeedPoint img p s.counter s.ann with
      | none => simp only [hinit] at h; exact Option.noConfusion h
      | some ann2 =>
        simp only [hinit] at h
        simp only [InitialiseAnnotationOfSeedPoint] at hinit
        cases hfind : annFind s.ann (linIdx img p) with
        | none => rw [hfind] at hinit; exact Option.noConfusion hinit
        | some a0 =>
          simp only [hfind] at hinit
          refine ih ⟨ann2, heap2, s.counter + 1⟩ s2 h ?_ ?_ ?_ ?_
          · show KeysNodup ann2
            have hkeys := keys_annModify hinit
            simpa [KeysNodup, hkeys] using hn
          · intro q hq
            exact hL q (List.mem_cons_of_mem p hq)
          · intro pa hpa
            rcases mem_annModify_of_nodup hinit hn hpa with rfl | ⟨hmem, hne⟩
            · left
              refine ⟨by simp [AnnSq], hp, ?_, ?_, ?_⟩ <;>
                simp [ptOfIdx_linIdx hpc]
            · rcases hann pa hmem with hg | ⟨q, hq, hk⟩
              · exact Or.inl hg
              · rcases List.mem_cons.mp hq with rfl | hq2
                · exact absurd hk hne
                · exact Or.inr ⟨q, hq2, hk⟩
          · intro k hk
            rcases mem_bInsert hins hk with hk2 | rfl | rfl
            · exact hheap k hk2
            · exact bkeyGood_of_inCube hpc
            · exact bkeyDefault_good img

/-- The seeded initial state of the skeletonizer satisfies the run
invariant. -/
theorem initSeeds_good {img : TernaryImage} {s : IftState}
    (h : InitialiseAndEnqueueSeedPoints img = some s) : IftGood img s := by
  simp only [InitialiseAndEnqueueSeedPoints] at h
  cases hc : ComputeContours img with
  | none => simp only [hc] at h; exact Option.noConfusion h
  | some cst =>
    simp only [hc] at h
    have hg := computeContours_good hc
    refine enqueueSeeds_good cst.labeled ⟨cst.ann, [], 0⟩ s h hg.1 hg.2.2 ?_ ?_
    · intro pa hpa
      obtain ⟨q, hq, hk⟩ := hg.2.1 pa hpa
      exact Or.inr ⟨q, hq, hk⟩
    · intro k hk
      exact absurd hk (List.not_mem_nil k)

/-- The completed skeletonizer state satisfies the run invariant. -/
theorem computeSkeleton_good {img : TernaryImage} {s : IftState}
    (h : ComputeSkeleton img = some s) : IftGood img s := by
  simp only [ComputeSkeleton] at h
  cases hi : InitialiseAndEnqueueSeedPoints img with
  | none => simp only [hi] at h; exact Option.noConfusion h
  | some s0 =>
    simp only [hi] at h
    exact runIft_good _ _ _ h (initSeeds_good hi)

end DigitalRock

namespace DigitalRock

/-! ## Claim C5: handle-based heap removal order -/

/-- C5 counterexample: the claim asserts that entries with equal priorities
are removed in insertion (FIFO) order, and concretely that inserting
priorities 4, 4, 4 yields removals in insertion order.  Running the embedded
heap on exactly that input removes the handles in the order first, third,
second (handle ids 0, 2, 1), not insertion order 0, 1, 2. -/
theorem C5_equal_priorities_not_fifo :
    (InsertAll ([4, 4, 4].map some)).map (fun h => (RemoveAll h).map (fun e => e.2)) =
      some [0, 2, 1] ∧ [0, 2, 1] ≠ [0, 1, 2] := by
  constructor
  · decide
  · decide

/-- C5 (amended): for every sequence of Insert operations followed by any
number of Removes, the next Remove returns an entry whose priority is less
than or equal to the priority of every entry still in the heap; and the
concrete priority sequence 5, 3, 8, 1, 9, 2, 7 is removed in sorted order
1, 2, 3, 5, 7, 8, 9.  (Equal-priority entries are however not removed in
FIFO order.) -/
theorem C5_remove_returns_minimum :
    (∀ (ps : List HPrio) (h0 hk rest : List HEntry) (k : Nat) (e : HEntry),
      InsertAll ps = some h0 → RemoveK k h0 = some hk → Remove hk = some (e, rest) →
      ∀ f ∈ rest, heLess f e = false) ∧
    (InsertAll ([5, 3, 8, 1, 9, 2, 7].map some)).map
        (fun h => (RemoveAll h).map (fun e => e.1)) =
      some ([1, 2, 3, 5, 7, 8, 9].map some) := by
  constructor
  · intro ps h0 hk rest k e hins hrk hrem f hf
    have hp0 : HeapProp h0 := InsertList_heapProp ps [] 0 h0 heapProp_nil hins
    have hpk : HeapProp hk := RemoveK_heapProp k h0 hk hp0 hrk
    exact (Remove_spec hpk hrem).2 f hf
  · decide

/-- Witness for C5: the minimality statement applied to the concrete heap
built from priorities 2, 1, after zero removals, at the one remaining
entry. -/
theorem C5_remove_returns_minimum_witness :
    heLess ((some 2 : HPrio), (0 : Nat)) ((some 1 : HPrio), (1 : Nat)) = false :=
  C5_remove_returns_minimum.1 [some 2, some 1]
    [((some 1 : HPrio), 1), ((some 2 : HPrio), 0)]
    [((some 1 : HPrio), 1), ((some 2 : HPrio), 0)]
    [((some 2 : HPrio), 0)] 0 ((some 1 : HPrio), 1)
    (by decide) (by decide) (by decide)
    ((some 2 : HPrio), (0 : Nat)) (by decide)

/-! ## Claim C2: the percolation filter of the cluster labeller -/

/-- The 5 by 7 by 1 input of the C2 counterexample: an 11-cell cluster that
spans the whole cube (the first row and the last column) and a separate,
larger 12-cell block (rows 2 to 4, columns 1 to 4) that does not span it. -/
def flagC2grid : List Nat :=
  (List.range 35).map (fun i =>
    if [0,5,10,15,20,25,30,31,32,33,34,7,8,9,12,13,14,17,18,19,22,23,24].contains i
    then 1 else 0)

/-- C2 counterexample: voxel 0 belongs to cluster 1, whose inclusive
bounding-box volume equals the cube size 35, i.e. the cluster percolates in
the sense of the claim; nevertheless the output value at voxel 0 is 0,
because the walk meets the larger non-percolating 12-cell cluster first and
stops, recording no percolating label at all.  The sizes 11 and 12 of the two
clusters are exhibited as well. -/
theorem C2_spanning_cluster_masked_out :
    (let r := EnhancedHoshenKopelman ⟨5, 7, 1⟩ flagC2grid
     (r.out.getD 0 9, r.final.lcube.getD 0 9, hkBBoxProd r.final 1, 5 * 7 * 1,
      r.percolating, r.final.n 1, r.final.n 2)) =
      (0, 1, 35, 35, [], 11, 12) := by
  decide

/-- C2 (amended): after EnhancedHoshenKopelman, the output value at a voxel
is 1 exactly when the proper label computed for it during the final pass is
one of the labels recorded by the percolation walk; the walk stops at the
first label (in descending order of size) whose bounding box does not fill
the cube, and every recorded label's bounding box does fill the cube.  A
cluster whose box fills the cube can nevertheless be absent from the record
when a larger, non-spanning cluster precedes it. -/
theorem C2_output_iff_recorded_percolating :
    (∀ (d : HKDims) (flagged : List Nat) (i : Nat),
      i < (EnhancedHoshenKopelman d flagged).final.lcube.length →
      ((EnhancedHoshenKopelman d flagged).out.getD i 9 = 1 ↔
        (HKProper
            (hkFinalState (EnhancedHoshenKopelman d flagged).final
              ((EnhancedHoshenKopelman d flagged).final.lcube.take i))
            ((EnhancedHoshenKopelman d flagged).final.lcube.getD i 0)).1
          ∈ (EnhancedHoshenKopelman d flagged).percolating)) ∧
    (∀ (d : HKDims) (st : HKSweep) (x : Nat),
      x ∈ hkPercolating d st → hkBBoxProd st x = d.nr * d.nc * d.ns) := by
  constructor
  · intro d flagged i hi
    have hchar := hkFinalPass_getD (EnhancedHoshenKopelman d flagged).percolating
      (EnhancedHoshenKopelman d flagged).final.lcube
      (EnhancedHoshenKopelman d flagged).final i hi
    have hout : (EnhancedHoshenKopelman d flagged).out =
        hkFinalPass (EnhancedHoshenKopelman d flagged).percolating
          (EnhancedHoshenKopelman d flagged).final
          (EnhancedHoshenKopelman d flagged).final.lcube := rfl
    rw [hout, hchar]
    by_cases hmem : (HKProper
        (hkFinalState (EnhancedHoshenKopelman d flagged).final
          ((EnhancedHoshenKopelman d flagged).final.lcube.take i))
        ((EnhancedHoshenKopelman d flagged).final.lcube.getD i 0)).1
        ∈ (EnhancedHoshenKopelman d flagged).percolating
    · simp [hmem]
    · simp [hmem]
  · intro d st x h
    exact hkPercolating_spans h

/-- Witness for C2: the characterisation applied to the one-voxel cube with
its single voxel flagged. -/
theorem C2_output_iff_recorded_percolating_witness :
    (EnhancedHoshenKopelman ⟨1, 1, 1⟩ [1]).out.getD 0 9 = 1 ↔
      (HKProper
          (hkFinalState (EnhancedHoshenKopelman ⟨1, 1, 1⟩ [1]).final
            ((EnhancedHoshenKopelman ⟨1, 1, 1⟩ [1]).final.lcube.take 0))
          ((EnhancedHoshenKopelman ⟨1, 1, 1⟩ [1]).final.lcube.getD 0 0)).1
        ∈ (EnhancedHoshenKopelman ⟨1, 1, 1⟩ [1]).percolating :=
  C2_output_iff_recorded_percolating.1 ⟨1, 1, 1⟩ [1] 0 (by decide)

/-! ## Claim C6: HKProper under the static cache -/

/-- The 3 by 3 by 2 input of the C6 failing run: sites (0,1,0), (1,1,0),
(2,0,0) and (1,2,1) are flagged (linear indices 3, 4, 2, 16). -/
def flagC6grid : List Nat :=
  (List.range 18).map (fun i => if [2, 3, 4, 16].contains i then 1 else 0)

/-- C6: on the grid flagC6grid, sweep the sixteen cells preceding the flagged
site (1,2,1).  Processing site (1,1,0) merged cluster 2 into cluster 1 and
left the static cache holding (2, 2).  At the reached state: the first
neighbour label PreviousNeighbours reads for site (1,2,1) (offset
(-1,-1,-1), cell (0,1,0)) is 2; the current alias chain of label 2 ends at
the proper label 1 (its link entry is negative, so 2 is an alias); yet the
HKProper call returns the stale cached value 2, not 1. -/
theorem C6_stale_cache_returns_alias :
    (let st := hkSweepCells ⟨3, 3, 2⟩ (List.range 16)
        ⟨flagC6grid, fun _ => 0, none, 0, 0, fun _ => (0, 0, 0), fun _ => (0, 0, 0)⟩
     (hkNeighbourLabel ⟨3, 3, 2⟩ st.lcube 1 2 1 (-1, -1, -1),
      (HKProper st 2).1, hkChainEnd st.n 2 2, decide (st.n 2 < 0),
      st.cacheLabel, st.cacheProper)) =
      (2, 2, 1, true, some 2, 2) := by
  decide

/-! ## Claim C10: bounds safety of Remove -/

/-- C10: Remove on a heap holding exactly one entry returns that entry and
leaves the heap empty, but its post-pop access elements_[0] (the SetIndex
call of the source) addresses index 0 of the now empty element vector: the
recorded bounds flag is false.  For heaps with at least two entries every
access of Remove stays within bounds. -/
theorem C10_remove_out_of_bounds_on_singleton :
    RemoveChecked [((some 5 : HPrio), (0 : Nat))] =
      some ((((some 5 : HPrio), (0 : Nat)), [], false)) ∧
    (∀ l : List HEntry, 2 ≤ l.length →
      (RemoveChecked l).map (fun r => r.2.2) = some true) := by
  constructor
  · decide
  · intro l hl
    cases l with
    | nil => simp at hl
    | cons a t =>
      simp only [RemoveChecked, Option.map]
      have hlen : (((a :: t).set 0 (getE (a :: t) ((a :: t).length - 1))).dropLast).length
          = t.length := by
        simp
      rw [hlen]
      have hpos : 0 < t.length := by
        simp at hl
        omega
      simp [hpos]

/-- Witness for C10: the in-bounds statement applied to a concrete two-entry
heap. -/
theorem C10_remove_out_of_bounds_on_singleton_witness :
    (RemoveChecked [((some 1 : HPrio), (0 : Nat)), ((some 2 : HPrio), (1 : Nat))]).map
      (fun r => r.2.2) = some true :=
  C10_remove_out_of_bounds_on_singleton.2
    [((some 1 : HPrio), (0 : Nat)), ((some 2 : HPrio), (1 : Nat))] (by decide)

/-! ## Claim C3: the source loop of the centerline calculator -/

/-- Dijkstra.ExecuteGradient (dijkstra.h): returns false, executing nothing,
exactly when the source is not a vertex of the graph; otherwise the run
happens and true is returned.  The embedding abstracts the graph to its
vertex key list and keeps the log of sources for which the algorithm
executed. -/
def ExecuteGradient (graphKeys : List Nat) (src : Nat) (log : List Nat) :
    Bool × List Nat :=
  if graphKeys.contains src then (true, log ++ [src]) else (false, log)

/-- The source loop of CenterlineCalculator.ComputeForSources: each source
point runs ExecuteSingleComputation, whose executed flag is the return value
of ExecuteGradient, and the loop breaks after the first source that
executed. -/
def ComputeForSources (graphKeys : List Nat) : List Nat → List Nat → List Nat
  | [], log => log
  | src :: rest, log =>
    match ExecuteGradient graphKeys src log with
    | (true, log2) => log2
    | (false, log2) => ComputeForSources graphKeys rest log2

/-- C3 counterexample: with two inlet sources 7 and 9 both present in the
graph, the run log of the source loop is [7]: the loop broke after the first
executed source, although source 9 would also have executed (its
ExecuteGradient flag is true).  Each inlet does not get its own Dijkstra
execution. -/
theorem C3_only_first_inlet_runs :
    ComputeForSources [7, 9] [7, 9] [] = [7] ∧
    (ExecuteGradient [7, 9] 9 []).1 = true ∧
    ([7] : List Nat) ≠ [7, 9] := by
  decide

/-- C3 (amended): the gradient Dijkstra runs exactly once, from the first
source point present in the graph (and never when no source point is):
sources after the first present one are not executed. -/
theorem C3_runs_exactly_first_present_source (graphKeys sources : List Nat) :
    ComputeForSources graphKeys sources [] =
      match sources.find? (fun s => graphKeys.contains s) with
      | none => []
      | some s => [s] := by
  suffices h : ∀ log, ComputeForSources graphKeys sources log =
      log ++ match sources.find? (fun s => graphKeys.contains s) with
      | none => []
      | some s => [s] by
    simpa using h []
  induction sources with
  | nil => intro log; simp [ComputeForSources]
  | cons src rest ih =>
    intro log
    simp only [ComputeForSources, ExecuteGradient]
    by_cases hc : graphKeys.contains src = true
    · rw [if_pos hc, List.find?_cons_of_pos _ hc]
    · rw [if_neg hc, List.find?_cons_of_neg _ (by simpa using hc)]
      simpa using ih log

/-! ## Claim C4: the property value stored by the graph builders -/

/-- A graph vertex key (centerline/vertex.h): the point and its property
value.  The production property type is double, holding
static_cast<double>(distance); every distance of a run is far below 2 to the
53, so the cast is exact and the property is modelled by the natural number
it holds. -/
structure VKey where
  point : Pt
  prop : Nat
deriving DecidableEq

/-- MemoryGraphBuilder.Build: one vertex per annotated object point, keyed
by the point together with the raw annotated distance as the property
value. -/
def MemoryGraphBuild (img : TernaryImage) (ann : AnnMap) : List VKey :=
  ann.filterMap (fun pa =>
    if IsObjectPoint img (ptOfIdx img pa.1) = true then
      some ⟨ptOfIdx img pa.1, pa.2.distance⟩
    else none)

/-- SpeedGraphBuilder.Build: a slot per linear index; each annotated object
point fills its slot with the point and the raw annotated distance, and sets
the has-annotation flag (none models an unset slot with a false flag). -/
def SpeedGraphBuild (img : TernaryImage) (ann : AnnMap) : List (Option VKey) :=
  ann.foldl (fun vs pa =>
    if IsObjectPoint img (ptOfIdx img pa.1) = true then
      vs.set pa.1 (some ⟨ptOfIdx img pa.1, pa.2.distance⟩)
    else vs)
    (List.replicate (img.nr * img.nc * img.ns) none)

/-- The property value the specification's words prescribe: the square root
of the annotated squared distance.  This definition is modelled from the
spec, not from the source, for the comparison; it is evaluated at a perfect
square, where the real square root is exactly the natural square root. -/
def specSqrtProperty (distance : Nat) : Nat := Nat.sqrt distance

/-- The 5 by 1 by 1 image of the C4 counterexample: one solid voxel at
index 0, pores elsewhere. -/
def imgC4 : TernaryImage := ⟨5, 1, 1, [1, 0, 0, 0, 0]⟩

/-- A one-annotation map for the C4 counterexample: the pore voxel at linear
index 2 annotated with squared distance 4. -/
def annC4 : AnnMap := [(2, { annDefault with distance := 4 })]

/-- C4 counterexample: both builders store property value 4 - the raw
annotated distance - for the voxel whose distance is 4, while the
specification's square root of 4 is 2: the stored property is not the square
root of the distance. -/
theorem C4_property_not_square_root :
    MemoryGraphBuild imgC4 annC4 = [⟨((2:Int), (0:Int), (0:Int)), 4⟩] ∧
    (SpeedGraphBuild imgC4 annC4).getD 2 none =
      some ⟨((2:Int), (0:Int), (0:Int)), 4⟩ ∧
    specSqrtProperty 4 = 2 ∧ (4 : Nat) ≠ 2 := by
  refine ⟨by decide, by decide, ?_, by decide⟩
  rw [specSqrtProperty, show (4 : Nat) = 2 * 2 from rfl, Nat.sqrt_eq]

/-- Reads of a set slot: the written element at the set position (when in
range), the old content elsewhere. -/
theorem getD_set_cases {α : Type} : ∀ (l : List α) (j : Nat) (x d : α) (i : Nat),
    (l.set j x).getD i d = if i = j ∧ j < l.length then x else l.getD i d := by
  intro l
  induction l with
  | nil => intro j x d i; simp
  | cons a t ih =>
    intro j x d i
    cases j with
    | zero =>
      cases i with
      | zero => simp
      | succ ii => simp
    | succ jj =>
      cases i with
      | zero => simp
      | succ ii =>
        simp only [List.set_cons_succ, List.getD_cons_succ, List.length_cons]
        rw [ih jj x d ii]
        by_cases h : ii = jj ∧ jj < t.length
        · rw [if_pos h, if_pos (by omega)]
        · rw [if_neg h, if_neg (by omega)]

/-- Every filled slot of the speed builder's fold satisfies any property
that the written keys satisfy, provided the initial slots do. -/
theorem speedBuild_aux (img : TernaryImage) (P : VKey → Prop) :
    ∀ (m : AnnMap) (vs : List (Option VKey)),
    (∀ pa ∈ m, IsObjectPoint img (ptOfIdx img pa.1) = true →
      P ⟨ptOfIdx img pa.1, pa.2.distance⟩) →
    (∀ i v, vs.getD i none = some v → P v) →
    ∀ i v, (m.foldl (fun vs2 pa =>
        if IsObjectPoint img (ptOfIdx img pa.1) = true then
          vs2.set pa.1 (some ⟨ptOfIdx img pa.1, pa.2.distance⟩)
        else vs2) vs).getD i none = some v → P v := by
  intro m
  induction m with
  | nil => intro vs _ hvs i v hv; exact hvs i v hv
  | cons pa m2 ih =>
    intro vs hm hvs i v hv
    rw [List.foldl_cons] at hv
    refine ih _ (fun qa hqa => hm qa (List.mem_cons_of_mem pa hqa)) ?_ i v hv
    intro j w hw
    by_cases hobj : IsObjectPoint img (ptOfIdx img pa.1) = true
    · rw [if_pos hobj, getD_set_cases] at hw
      by_cases hj : j = pa.1 ∧ pa.1 < vs.length
      · rw [if_pos hj] at hw
        obtain rfl : (⟨ptOfIdx img pa.1, pa.2.distance⟩ : VKey) = w := by injection hw
        exact hm pa (List.mem_cons_self pa m2) hobj
      · rw [if_neg hj] at hw
        exact hvs j w hw
    · rw [if_neg hobj] at hw
      exact hvs j w hw

/-- C4 (amended): every vertex produced by either builder carries as its
property value the raw annotated squared distance of its voxel - not its
square root - and stands at an annotated object point. -/
theorem C4_property_is_raw_distance :
    (∀ (img : TernaryImage) (ann : AnnMap) (v : VKey), v ∈ MemoryGraphBuild img ann →
      ∃ pa, pa ∈ ann ∧ v.point = ptOfIdx img pa.1 ∧ v.prop = pa.2.distance ∧
        IsObjectPoint img v.point = true) ∧
    ∀ (img : TernaryImage) (ann : AnnMap) (i : Nat) (v : VKey),
      (SpeedGraphBuild img ann).getD i none = some v →
      ∃ pa, pa ∈ ann ∧ v.point = ptOfIdx img pa.1 ∧ v.prop = pa.2.distance ∧
        IsObjectPoint img v.point = true := by
  constructor
  · intro img ann v hv
    obtain ⟨pa, hpa, hf⟩ := List.mem_filterMap.mp hv
    by_cases hobj : IsObjectPoint img (ptOfIdx img pa.1) = true
    · rw [if_pos hobj] at hf
      obtain rfl : (⟨ptOfIdx img pa.1, pa.2.distance⟩ : VKey) = v := by injection hf
      exact ⟨pa, hpa, rfl, rfl, hobj⟩
    · rw [if_neg hobj] at hf
      exact absurd hf (by simp)
  · intro img ann i v hv
    refine speedBuild_aux img
      (fun w => ∃ pa, pa ∈ ann ∧ w.point = ptOfIdx img pa.1 ∧
        w.prop = pa.2.distance ∧ IsObjectPoint img w.point = true)
      ann _ (fun pa hpa hobj => ⟨pa, hpa, rfl, rfl, hobj⟩) ?_ i v hv
    intro j w hw
    by_cases hj : j < img.nr * img.nc * img.ns
    · rw [List.getD_eq_getElem?_getD, List.getElem?_replicate, if_pos hj] at hw
      exact absurd hw (by simp)
    · rw [List.getD_eq_getElem?_getD, List.getElem?_replicate, if_neg hj] at hw
      exact absurd hw (by simp)

/-! ## Claim C8: splitting centerlines at branch points -/

/-- CenterlineSet.IsBranch: membership of the point in the recorded branch
node set. -/
def IsBranch (branchNodes : List Pt) (p : Pt) : Bool := branchNodes.contains p

/-- Centerline.split at an index: at index 0 or the last index it returns
the empty line and leaves the line unchanged; otherwise the line keeps its
first index+1 nodes and the returned line holds the nodes from the index on
(the node at the index belongs to both). -/
def clSplit (nodes : List Pt) (i : Nat) : List Pt × List Pt :=
  if i = 0 ∨ i = nodes.length - 1 then (nodes, [])
  else (nodes.take (i + 1), nodes.drop i)

/-- The effective condition of the inner loop of SplitByBranchPoints at
index i: the node is a recorded branch point and the index is internal
(otherwise split returns the empty line, which is not appended, and the
loop continues). -/
def fibPred (branchNodes nodes : List Pt) (i : Nat) : Bool :=
  IsBranch branchNodes (nodes.getD i ((0:Int), (0:Int), (0:Int))) &&
  decide (0 < i) && decide (i < nodes.length - 1)

/-- The inner loop of SplitByBranchPoints: scan the indices upward and
return the first one satisfying the effective condition.  The fuel counts
the remaining indices; nodes.length covers the scan from 0. -/
def fibAux (branchNodes nodes : List Pt) : Nat → Nat → Option Nat
  | 0, _ => none
  | fuel + 1, i =>
    if i < nodes.length then
      if fibPred branchNodes nodes i then some i
      else fibAux branchNodes nodes fuel (i + 1)
    else none

/-- The first internal branch index of a centerline, if any. -/
def firstInternalBranch (branchNodes nodes : List Pt) : Option Nat :=
  fibAux branchNodes nodes nodes.length 0

/-- One outer iteration of SplitByBranchPoints on one path: split at the
first internal branch index, when there is one; the path keeps the prefix
and the split-off tail is appended to the path vector. -/
def splitOnePath (branchNodes nodes : List Pt) : List Pt × Option (List Pt) :=
  match firstInternalBranch branchNodes nodes with
  | none => (nodes, none)
  | some i => ((clSplit nodes i).1, some (clSplit nodes i).2)

/-- The outer loop of SplitByBranchPoints: the index sweeps the growing path
vector, so the processed prefix (done) grows by the kept part of each path
and split-off tails join the back of the unprocessed suffix (todo).  Fuel
bounds the number of processed paths; none on exhaustion. -/
def processQueue (branchNodes : List Pt) :
    Nat → List (List Pt) → List (List Pt) → Option (List (List Pt))
  | 0, done, [] => some done
  | 0, _, _ :: _ => none
  | _ + 1, done, [] => some done
  | fuel + 1, done, p :: todo =>
    match splitOnePath branchNodes p with
    | (kept, none) => processQueue branchNodes fuel (done ++ [kept]) todo
    | (kept, some tail) => processQueue branchNodes fuel (done ++ [kept]) (todo ++ [tail])

/-- CenterlineSet.SplitByBranchPoints on the path list.  The fuel is the sum
over the paths of length + 1, which dominates the number of paths ever
processed: a split consumes one unit and leaves strictly less measure
behind. -/
def SplitByBranchPoints (branchNodes : List Pt) (paths : List (List Pt)) :
    Option (List (List Pt)) :=
  processQueue branchNodes ((paths.map (fun p => p.length + 1)).sum) [] paths

/-- No internal node of the line is a recorded branch point. -/
def NoInternalBranch (branchNodes nodes : List Pt) : Prop :=
  ∀ i, 0 < i → i < nodes.length - 1 →
    IsBranch branchNodes (nodes.getD i ((0:Int), (0:Int), (0:Int))) = false

end DigitalRock

namespace DigitalRock

theorem fibAux_some (branchNodes nodes : List Pt) : ∀ (fuel i i0 : Nat),
    fibAux branchNodes nodes fuel i = some i0 →
    fibPred branchNodes nodes i0 = true ∧ i ≤ i0 ∧ i0 < nodes.length ∧
    ∀ j, i ≤ j → j < i0 → fibPred branchNodes nodes j = false := by
  intro fuel
  induction fuel with
  | zero => intro i i0 h; simp [fibAux] at h
  | succ n ih =>
    intro i i0 h
    simp only [fibAux] at h
    by_cases hlen : i < nodes.length
    · rw [if_pos hlen] at h
      by_cases hp : fibPred branchNodes nodes i = true
      · rw [if_pos hp] at h
        obtain rfl : i = i0 := by injection h
        exact ⟨hp, Nat.le_refl i, hlen, fun j hij hji => absurd hji (by omega)⟩
      · rw [if_neg hp] at h
        obtain ⟨hp0, hi0, hlen0, hmin⟩ := ih (i + 1) i0 h
        refine ⟨hp0, by omega, hlen0, ?_⟩
        intro j hij hji
        rcases Nat.eq_or_lt_of_le hij with rfl | hij2
        · exact Bool.eq_false_iff.mpr hp
        · exact hmin j hij2 hji
    · rw [if_neg hlen] at h
      exact absurd h (by simp)

theorem fibAux_none (branchNodes nodes : List Pt) : ∀ (fuel i : Nat),
    fibAux branchNodes nodes fuel i = none → ∀ j, i ≤ j → j < nodes.length →
    j < i + fuel → fibPred branchNodes nodes j = false := by
  intro fuel
  induction fuel with
  | zero => intro i _ j hij _ hjf; exact absurd hjf (by omega)
  | succ n ih =>
    intro i h j hij hjlen hjf
    simp only [fibAux] at h
    by_cases hlen : i < nodes.length
    · rw [if_pos hlen] at h
      by_cases hp : fibPred branchNodes nodes i = true
      · rw [if_pos hp] at h
        exact absurd h (by simp)
      · rw [if_neg hp] at h
        rcases Nat.eq_or_lt_of_le hij with rfl | hij2
        · exact Bool.eq_false_iff.mpr hp
        · exact ih (i + 1) h j hij2 hjlen (by omega)
    · exact absurd (Nat.lt_of_le_of_lt hij hjlen) hlen

/-- Reads within the taken prefix see the original list. -/
theorem getD_take {α : Type} : ∀ (l : List α) (n j : Nat) (d : α), j < n →
    (l.take n).getD j d = l.getD j d := by
  intro l
  induction l with
  | nil => intro n j d _; simp
  | cons a t ih =>
    intro n j d h
    cases n with
    | zero => exact absurd h (by omega)
    | succ m =>
      cases j with
      | zero => simp
      | succ jj =>
        simp only [List.take_succ_cons, List.getD_cons_succ]
        exact ih m jj d (by omega)

/-- A branch-free internal index from a false effective condition. -/
theorem isBranch_false_of_pred_false {branchNodes nodes : List Pt} {i : Nat}
    (hp : fibPred branchNodes nodes i = false) (h0 : 0 < i)
    (h1 : i < nodes.length - 1) :
    IsBranch branchNodes (nodes.getD i ((0:Int), (0:Int), (0:Int))) = false := by
  cases hb : IsBranch branchNodes (nodes.getD i ((0:Int), (0:Int), (0:Int))) with
  | false => rfl
  | true =>
    rw [fibPred, hb] at hp
    simp [h0, h1] at hp

/-- The queue loop terminates within the measure and every path it keeps has
no internal branch point. -/
theorem processQueue_spec (branchNodes : List Pt) : ∀ (fuel : Nat)
    (done todo : List (List Pt)),
    (todo.map (fun p => p.length + 1)).sum ≤ fuel →
    (∀ nodes ∈ done, NoInternalBranch branchNodes nodes) →
    ∃ out, processQueue branchNodes fuel done todo = some out ∧
      ∀ nodes ∈ out, NoInternalBranch branchNodes nodes := by
  intro fuel
  induction fuel with
  | zero =>
    intro done todo hμ hdone
    cases todo with
    | nil => exact ⟨done, rfl, hdone⟩
    | cons p rest =>
      exfalso
      simp only [List.map_cons, List.sum_cons] at hμ
      omega
  | succ n ih =>
    intro done todo hμ hdone
    cases todo with
    | nil => exact ⟨done, rfl, hdone⟩
    | cons p rest =>
      simp only [List.map_cons, List.sum_cons] at hμ
      simp only [processQueue]
      cases hfib : firstInternalBranch branchNodes p with
      | none =>
        have hkeep : NoInternalBranch branchNodes p := by
          intro i h0 h1
          refine isBranch_false_of_pred_false ?_ h0 h1
          exact fibAux_none branchNodes p p.length 0 hfib i (Nat.zero_le i)
            (by omega) (by omega)
        simp only [splitOnePath, hfib]
        refine ih (done ++ [p]) rest (by omega) ?_
        intro nodes hn
        rcases List.mem_append.mp hn with hn2 | hn2
        · exact hdone nodes hn2
        · simp only [List.mem_singleton] at hn2
          rw [hn2]
          exact hkeep
      | some i0 =>
        obtain ⟨hp0, -, hi0len, hmin⟩ :=
          fibAux_some branchNodes p p.length 0 i0 hfib
        have h00 : 0 < i0 := by
          cases hz : decide (0 < i0) with
          | true => exact of_decide_eq_true hz
          | false => rw [fibPred, hz] at hp0; simp at hp0
        have h0len : i0 < p.length - 1 := by
          cases hz : decide (i0 < p.length - 1) with
          | true => exact of_decide_eq_true hz
          | false => rw [fibPred, hz] at hp0; simp at hp0
        have hguard : ¬(i0 = 0 ∨ i0 = p.length - 1) := by omega
        have hkeep : NoInternalBranch branchNodes (p.take (i0 + 1)) := by
          intro i h0 h1
          rw [List.length_take] at h1
          have hii : i < i0 := by omega
          rw [getD_take p (i0 + 1) i _ (by omega)]
          refine isBranch_false_of_pred_false (hmin i (Nat.zero_le i) hii) h0 ?_
          omega
        simp only [splitOnePath, hfib, clSplit, if_neg hguard]
        refine ih (done ++ [p.take (i0 + 1)]) (rest ++ [p.drop i0]) ?_ ?_
        · simp only [List.map_append, List.sum_append, List.map_cons,
            List.sum_cons, List.map_nil, List.sum_nil, List.length_drop]
          omega
        · intro nodes hn
          rcases List.mem_append.mp hn with hn2 | hn2
          · exact hdone nodes hn2
          · simp only [List.mem_singleton] at hn2
            rw [hn2]
            exact hkeep

/-- C8: SplitByBranchPoints terminates within its fuel on every input, and
in its output no internal position of any centerline is a recorded branch
point: branch points survive only as endpoints. -/
theorem C8_no_internal_branch_points (branchNodes : List Pt)
    (paths : List (List Pt)) :
    ∃ out, SplitByBranchPoints branchNodes paths = some out ∧
      ∀ nodes ∈ out, ∀ i, 0 < i → i < nodes.length - 1 →
        IsBranch branchNodes (nodes.getD i ((0:Int), (0:Int), (0:Int))) = false := by
  obtain ⟨out, hout, hinv⟩ := processQueue_spec branchNodes
    ((paths.map (fun p => p.length + 1)).sum) [] paths (Nat.le_refl _)
    (fun nodes hn => absurd hn (List.not_mem_nil nodes))
  exact ⟨out, hout, hinv⟩

/-! ## Claim C9: absent-key lookups on both graph flavours -/

/-- The hash-keyed graph (graph/memory_graph.h): an association list from
vertex keys to vertex annotations (the annotation content is abstracted to a
number).  The key equality of vertex.h compares the points only. -/
structure MemoryGraph where
  vs : List (VKey × Nat)

/-- MemoryGraph.operator[]: vertex_set_.at(key); none models the
out_of_range throw on an absent key.  The method only reads vertex_set_, so
the graph value is left untouched by a failed lookup. -/
def mgGet (g : MemoryGraph) (k : VKey) : Option Nat :=
  (g.vs.find? (fun e => e.1.point == k.point)).map Prod.snd

/-- MemoryGraph.HasVertex: whether the key is present; never fails. -/
def mgHasVertex (g : MemoryGraph) (k : VKey) : Bool :=
  (g.vs.find? (fun e => e.1.point == k.point)).isSome

/-- The flat-indexed graph (graph/speed_graph.h): a slot array of vertices,
the has-annotation flag array and the key-to-index converter (the linear
index of the key's point). -/
structure SpeedGraph where
  vs : List (VKey × Nat)
  hasAnn : List Bool
  conv : Pt → Nat

/-- SpeedGraph.operator[]: convert the key to its index; when the
has-annotation flag is off, none models the out_of_range throw; otherwise
GetAnnotation reads vertex_set_.at(index) (none models that checked access
out of range).  The method does not write the graph. -/
def sgGet (g : SpeedGraph) (k : VKey) : Option Nat :=
  if !(g.hasAnn.getD (g.conv k.point) false) then none
  else (g.vs[g.conv k.point]?).map Prod.snd

/-- SpeedGraph.HasVertex: has_annotation_list_.at(index); none models the
checked-access throw for an index out of range. -/
def sgHasVertex (g : SpeedGraph) (k : VKey) : Option Bool :=
  g.hasAnn[g.conv k.point]?

/-- C9: on the hash-keyed flavour, get returns none (the throw) exactly for
the keys HasVertex reports absent, and HasVertex itself is a total Bool.  On
the flat-indexed flavour, for keys whose converted index is in range (the
keys the pipeline ever presents), HasVertex answers without failing, and get
throws exactly when HasVertex answers false; the constructor guarantees the
two arrays have equal length.  Both lookups read the graph without modifying
it: the embedded methods return no new graph state. -/
theorem C9_absent_key_get_errors :
    (∀ (g : MemoryGraph) (k : VKey), mgHasVertex g k = false ↔ mgGet g k = none) ∧
    ∀ (g : SpeedGraph) (k : VKey), g.conv k.point < g.hasAnn.length →
      g.vs.length = g.hasAnn.length →
      (∃ b, sgHasVertex g k = some b) ∧
      (sgHasVertex g k = some false ↔ sgGet g k = none) := by
  constructor
  · intro g k
    rw [mgHasVertex, mgGet]
    cases hf : g.vs.find? (fun e => e.1.point == k.point) with
    | none => simp
    | some e => simp
  · intro g k hidx hlen
    have hv : g.hasAnn[g.conv k.point]? = some (g.hasAnn.getD (g.conv k.point) false) := by
      rw [List.getD_eq_getElem?_getD, List.getElem?_eq_getElem hidx]
      rfl
    refine ⟨⟨_, hv⟩, ?_⟩
    rw [sgHasVertex, sgGet, hv]
    cases hflag : g.hasAnn.getD (g.conv k.point) false with
    | false => simp
    | true =>
      simp only [Bool.not_true, Bool.false_eq_true, if_false]
      constructor
      · intro hcontra
        exact absurd (Option.some.inj hcontra) (by simp)
      · intro hnone
        have hvidx : g.conv k.point < g.vs.length := by omega
        rw [List.getElem?_eq_getElem hvidx] at hnone
        exact absurd hnone (by simp)

/-! ## Claims C1 and C7: the image-foresting transform -/

/-- The 8 by 14 by 1 rock mask of the C1 counterexample: three isolated
solid voxels at (0,2,0), (2,1,0) and (6,0,0) (linear indices 16, 10 and 6);
all three become contour voxels and every other voxel is pore. -/
def rockC1 : List Nat :=
  (List.range 112).map (fun i => if i == 6 || i == 10 || i == 16 then 1 else 0)

/-- The ternary image of the C1 counterexample. -/
def imgC1 : TernaryImage := ternaryOfRock 8 14 1 rockC1

/-- C1 counterexample: on imgC1 the queue drains and the pore voxel (7,13,0)
(linear index 111) ends with annotated distance 170 and recorded seed
(0,2,0); yet the contour voxel (2,1,0) lies at squared Euclidean distance
169 < 170 from it.  The transform is not the exact Euclidean distance
transform: a boundary voxel strictly closer than the annotated distance
exists. -/
theorem C1_not_exact_distance_transform :
    (ComputeSkeleton imgC1).bind (fun s =>
        (annFind s.ann 111).map (fun a => (a.distance, a.point, s.heap.isEmpty)))
      = some (170, ((0:Int), (2:Int), (0:Int)), true) ∧
    IsObjectPoint imgC1 ((7:Int), (13:Int), (0:Int)) = true ∧
    linIdx imgC1 ((7:Int), (13:Int), (0:Int)) = 111 ∧
    IsContourPoint imgC1 ((2:Int), (1:Int), (0:Int)) = true ∧
    ((7:Int) - 2) ^ 2 + ((13:Int) - 1) ^ 2 + ((0:Int) - 0) ^ 2 = 169 ∧
    (169 : Nat) < 170 := by
  refine ⟨rfl, rfl, rfl, rfl, by norm_num, by norm_num⟩

/-- A one-voxel all-solid image: its single cell is a contour point. -/
def imgONE : TernaryImage := ⟨1, 1, 1, [1]⟩

/-- The seeded state of the one-voxel image. -/
def iftSeed1 : IftState := (InitialiseAndEnqueueSeedPoints imgONE).getD ⟨[], [], 0⟩

/-- The completed state of the one-voxel image (two iterations drain the
queue). -/
def iftDone1 : IftState := (runIft imgONE 2 iftSeed1).getD ⟨[], [], 0⟩

/-- C1 (amended): after ComputeSkeleton, every annotation records a contour
point as its seed and its distance is bounded below by the squared Euclidean
distance from the annotated voxel to that seed.  (The stronger claim - that
the distance is the minimum over all contour voxels - is refuted by the
counterexample theorem.) -/
theorem C1_distance_bounded_by_contour_seed
    (img : TernaryImage) (s : IftState) (h : ComputeSkeleton img = some s)
    (idx : Nat) (a : Ann) (hmem : (idx, a) ∈ s.ann) :
    IsContourPoint img a.point = true ∧
    ((ptOfIdx img idx).1 - a.point.1) ^ 2 + ((ptOfIdx img idx).2.1 - a.point.2.1) ^ 2 +
      ((ptOfIdx img idx).2.2 - a.point.2.2) ^ 2 ≤ (a.distance : Int) := by
  obtain ⟨hsq, hc, h0, h1, h2⟩ := (computeSkeleton_good h).1 (idx, a) hmem
  refine ⟨hc, ?_⟩
  have b0 : ((ptOfIdx img idx).1 - a.point.1) ^ 2 ≤ a.d0 ^ 2 := by
    rw [← sq_abs]
    exact pow_le_pow_left (abs_nonneg _) h0 2
  have b1 : ((ptOfIdx img idx).2.1 - a.point.2.1) ^ 2 ≤ a.d1 ^ 2 := by
    rw [← sq_abs]
    exact pow_le_pow_left (abs_nonneg _) h1 2
  have b2 : ((ptOfIdx img idx).2.2 - a.point.2.2) ^ 2 ≤ a.d2 ^ 2 := by
    rw [← sq_abs]
    exact pow_le_pow_left (abs_nonneg _) h2 2
  rw [hsq]
  exact add_le_add (add_le_add b0 b1) b2

/-- Witness for C1: the seed bound applied to the completed one-voxel run at
its single annotation. -/
theorem C1_distance_bounded_by_contour_seed_witness :
    IsContourPoint imgONE ((annFind iftDone1.ann 0).getD annDefault).point = true ∧
    ((ptOfIdx imgONE 0).1 - ((annFind iftDone1.ann 0).getD annDefault).point.1) ^ 2 +
      ((ptOfIdx imgONE 0).2.1 - ((annFind iftDone1.ann 0).getD annDefault).point.2.1) ^ 2 +
      ((ptOfIdx imgONE 0).2.2 - ((annFind iftDone1.ann 0).getD annDefault).point.2.2) ^ 2 ≤
      (((annFind iftDone1.ann 0).getD annDefault).distance : Int) :=
  C1_distance_bounded_by_contour_seed imgONE iftDone1 rfl 0
    ((annFind iftDone1.ann 0).getD annDefault) (by decide)

/-- C7: throughout the image-foresting transform every annotation satisfies
distance = d0 squared + d1 squared + d2 squared over the displacements stored
beside it: the seeded initial state satisfies the equation, a single
relaxation (PropagateLabelToNeighbour) preserves it from any state whose
annotations all satisfy it, and it holds after any number of main-loop
iterations from the seeded state. -/
theorem C7_distance_equals_squared_displacement_sum :
    (∀ (img : TernaryImage) (s0 : IftState),
      InitialiseAndEnqueueSeedPoints img = some s0 →
      ∀ pa ∈ s0.ann, (pa.2.distance : Int) = pa.2.d0 ^ 2 + pa.2.d1 ^ 2 + pa.2.d2 ^ 2) ∧
    (∀ (img : TernaryImage) (origin : Pt) (oa : Ann) (nb : Pt) (s s2 : IftState),
      PropagateLabelToNeighbour img origin oa nb s = some s2 →
      (∀ pa ∈ s.ann, (pa.2.distance : Int) = pa.2.d0 ^ 2 + pa.2.d1 ^ 2 + pa.2.d2 ^ 2) →
      ∀ pa ∈ s2.ann, (pa.2.distance : Int) = pa.2.d0 ^ 2 + pa.2.d1 ^ 2 + pa.2.d2 ^ 2) ∧
    ∀ (img : TernaryImage) (fuel : Nat) (s0 s : IftState),
      InitialiseAndEnqueueSeedPoints img = some s0 → runIft img fuel s0 = some s →
      ∀ pa ∈ s.ann, (pa.2.distance : Int) = pa.2.d0 ^ 2 + pa.2.d1 ^ 2 + pa.2.d2 ^ 2 :=
  ⟨fun _ _ h0 pa hpa => ((initSeeds_good h0).1 pa hpa).1,
   fun _ _ _ _ _ _ h hs => propagate_sq h hs,
   fun _ fuel s0 s h0 h pa hpa => ((runIft_good fuel s0 s h (initSeeds_good h0)).1 pa hpa).1⟩

end DigitalRock
